import Mathlib

/-!
Verification of the `fhir-schema` repository's remote package-loading
utilities (`src/fhirschema-js/src/utils.js` and the browser variant in
`src/unnamed/part_000`) and of the validation core's specified contract.

JavaScript values produced by `JSON.parse` are embedded as the inductive
type `JValue`; decompressed NDJSON package streams are embedded as
`List Char`; the host's `JSON.parse` is a parameter
`parse : List Char → Option JValue` (`none` models a parse exception).
Rejected promises and uncaught exceptions are both embedded as
`Except.error`.
-/

/-- A JSON value as produced by `JSON.parse`: null, booleans, numbers,
strings, arrays, and objects (ordered key/value lists). -/
inductive JValue where
  | null
  | bool (b : Bool)
  | num (n : Int)
  | str (s : String)
  | arr (xs : List JValue)
  | obj (kvs : List (String × JValue))

/-- JavaScript truthiness of a JSON value (`null`, `false`, `0` and `""`
are falsy; arrays and objects are always truthy). -/
def jsTruthy : JValue → Bool
  | .null => false
  | .bool b => b
  | .num n => n ≠ 0
  | .str s => s ≠ ""
  | .arr _ => true
  | .obj _ => true

/-- JavaScript `typeof v === "object"`: true for null, arrays and objects. -/
def jsTypeofObject : JValue → Bool
  | .null => true
  | .arr _ => true
  | .obj _ => true
  | _ => false

/-- JavaScript `Array.isArray`. -/
def jsIsArray : JValue → Bool
  | .arr _ => true
  | _ => false

/-- First-match lookup in a JavaScript object's key/value list. -/
def jLookup : List (String × JValue) → String → Option JValue
  | [], _ => none
  | (k', v) :: rest, k => if k' = k then some v else jLookup rest k

/-- JavaScript property assignment `o[k] = v` on an object embedded as an
ordered key/value list: an existing key keeps its position and gets the
new value, a new key is appended. -/
def objSet : List (String × JValue) → String → JValue → List (String × JValue)
  | [], k, v => [(k, v)]
  | (k', v') :: rest, k, v =>
    if k' = k then (k, v) :: rest else (k', v') :: objSet rest k v

/-- JavaScript property read `v.k` on a `JSON.parse` result: reading a
property of `null` throws a `TypeError` (embedded as `Except.error`);
reading an absent property, or a property of a primitive or an array,
yields `undefined` (embedded as `none`). -/
def jsMember (v : JValue) (k : String) : Except String (Option JValue) :=
  match v with
  | .null => .error "TypeError"
  | .obj kvs => .ok (jLookup kvs k)
  | _ => .ok none

mutual

/-- JavaScript string coercion of a JSON value, as used by a computed
property key `o[x]`: arrays join their members with commas, objects
become `[object Object]`. -/
def jsToString : JValue → String
  | .null => "null"
  | .bool b => if b then "true" else "false"
  | .num n => toString n
  | .str s => s
  | .arr xs => String.intercalate "," (jsToStringList xs)
  | .obj _ => "[object Object]"

/-- String coercion of the members of a JSON array (`null` members
stringify to the empty string inside a join). -/
def jsToStringList : List JValue → List String
  | [] => []
  | .null :: xs => "" :: jsToStringList xs
  | x :: xs => jsToString x :: jsToStringList xs

end

/-- The strict comparison `v === "primitive-type"` applied to the value of
an object's `kind` property (`undefined` when the property is absent). -/
def isPrimitiveKind : Option JValue → Bool
  | some (.str s) => s = "primitive-type"
  | _ => false

/-- Line scanner shared by both stream consumers in the source: characters
accumulate into a buffer, each `\n` emits the buffered line (without the
newline), and when the stream ends the unterminated buffer is dropped. -/
def linesAcc : List Char → List Char → List (List Char)
  | _, [] => []
  | acc, c :: cs =>
    if c = '\n' then acc :: linesAcc [] cs else linesAcc (acc ++ [c]) cs

/-- The newline-terminated lines of a decompressed package stream. -/
def extractLines (cs : List Char) : List (List Char) :=
  linesAcc [] cs

/-- JavaScript `line.includes(pat)`: `pat` occurs contiguously in `line`. -/
def jsIncludes (line pat : List Char) : Bool :=
  line.tails.any (fun t => pat.isPrefixOf t)

/-- The delimiter marker searched for by `loadPackageSchemas`. -/
def delimiterChars : List Char :=
  "fhir-schema/delimiter".toList

/-- JavaScript `!line.trim()`: the line contains only whitespace. -/
def jsBlank (line : List Char) : Bool :=
  line.all Char.isWhitespace

/-- One iteration of the line-processing loop shared verbatim by the Node
and browser `loadPackageSchemas`: skip blank lines, flip `pastDelimiter`
on a line containing the delimiter marker, and past the delimiter parse
the line and retain it under its `name` and `url` keys when it has an
`elements` object or `kind` equal to `primitive-type`. The state is
`(pastDelimiter, schemas)`. -/
def processLine (parse : List Char → Option JValue)
    (st : Bool × List (String × JValue)) (line : List Char) :
    Except String (Bool × List (String × JValue)) :=
  if jsBlank line then .ok st
  else if jsIncludes line delimiterChars then .ok (true, st.2)
  else if st.1 then
    match parse line with
    | none => .error "Failed to parse JSON"
    | some schema => do
      let elems ← jsMember schema "elements"
      let hasElements :=
        match elems with
        | some e => jsTruthy e && jsTypeofObject e && !jsIsArray e
        | none => false
      let kindv ← jsMember schema "kind"
      let isPrimitive := isPrimitiveKind kindv
      if hasElements || isPrimitive then do
        let namev ← jsMember schema "name"
        let m1 :=
          match namev with
          | some n => if jsTruthy n then objSet st.2 (jsToString n) schema else st.2
          | none => st.2
        let urlv ← jsMember schema "url"
        let m2 :=
          match urlv with
          | some u => if jsTruthy u then objSet m1 (jsToString u) schema else m1
          | none => m1
        .ok (st.1, m2)
      else .ok st
  else .ok st

/-- The Node implementation of `loadPackageSchemas`
(`src/fhirschema-js/src/utils.js`): a non-200 HTTP status rejects the
promise; otherwise the newline-terminated lines of the decompressed
stream are processed and the accumulated schema map is resolved. -/
def loadPackageSchemasNode (parse : List Char → Option JValue)
    (statusOk : Bool) (text : List Char) :
    Except String (List (String × JValue)) :=
  if !statusOk then .error "Failed to fetch package"
  else do
    let st ← (extractLines text).foldlM (processLine parse) (false, [])
    .ok st.2

/-- The browser implementation of `loadPackageSchemas`
(`src/unnamed/part_000`): a failed fetch logs a warning and returns the
empty schema map; otherwise the lines are processed identically to the
Node implementation. -/
def loadPackageSchemasBrowser (parse : List Char → Option JValue)
    (statusOk : Bool) (text : List Char) :
    Except String (List (String × JValue)) :=
  if !statusOk then .ok []
  else do
    let st ← (extractLines text).foldlM (processLine parse) (false, [])
    .ok st.2

/-- The browser implementation of `getSpecificLineFromNdjson`
(`src/unnamed/part_000`): returns the parsed JSON of the 1-based
`targetLine`-th newline-terminated line, and `null` when the fetch
fails, the stream ends before that many lines, or parsing throws
(the surrounding `try`/`catch` returns `null`). -/
def getSpecificLineFromNdjson (parse : List Char → Option JValue)
    (statusOk : Bool) (text : List Char) (targetLine : Nat) : Option JValue :=
  if !statusOk then none
  else
    match targetLine with
    | 0 => none
    | n + 1 =>
      match (extractLines text).get? n with
      | none => none
      | some line => parse line

/-- Insertion-ordered deduplication with an explicit seen-list, modelling
construction of a JavaScript `Set` from an iterable (first occurrence
wins, iteration order preserved). -/
def jsDedupAux : List String → List String → List String
  | _, [] => []
  | seen, x :: xs =>
    if x ∈ seen then jsDedupAux seen xs else x :: jsDedupAux (x :: seen) xs

/-- JavaScript `new Set(xs)` as an insertion-ordered duplicate-free list. -/
def jsDedup (xs : List String) : List String :=
  jsDedupAux [] xs

/-- The package registry's dependency relation, the embedding of
`getPackageDeps`: the (already normalized) dependency list recorded for a
coordinate, or `[]` when the package is not found in the registry. -/
def regDeps (reg : List (String × List String)) (c : String) : List String :=
  match reg.find? (fun p => p.1 == c) with
  | some p => p.2
  | none => []

/-- One pass of `dependencyResolver`'s else-branch: fetch the dependencies
of every enqueued coordinate, keep the truthy (non-empty) ones as a set,
move the enqueued coordinates into the visited set, and enqueue the
children not already visited. -/
def depStep (reg : List (String × List String)) (visited enqueued : List String) :
    List String × List String :=
  let childDeps := jsDedup (((enqueued.map (regDeps reg)).flatten).filter (fun s => s != ""))
  (jsDedup (visited ++ enqueued), childDeps.filter (fun x => !(visited.contains x)))

/-- Every dependency value recorded anywhere in the registry; newly
enqueued coordinates always come from this finite set. -/
def regVals (reg : List (String × List String)) : Finset String :=
  ((reg.map Prod.snd).flatten).toFinset

/-- Termination measure for `dependencyResolver`: twice the number of
not-yet-visited coordinates among those in play, plus a flag that is
higher while the enqueued set sits inside the visited set (which happens
once on a dependency cycle, just before the queue empties). -/
def depMeasure (reg : List (String × List String)) (visited enqueued : List String) : Nat :=
  if enqueued = [] then 0
  else
    2 * ((regVals reg ∪ visited.toFinset ∪ enqueued.toFinset) \ visited.toFinset).card
      + (if enqueued.toFinset ⊆ visited.toFinset then 2 else 1)

/-- The recursive breadth-first dependency closure of `utils.js` and
`part_000` (`dependencyResolver`): returns the visited set once the
queue is empty, otherwise expands the queue one level. -/
def dependencyResolver (reg : List (String × List String)) (visited enqueued : List String) :
    List String :=
  if enqueued = [] then visited
  else
    dependencyResolver reg (depStep reg visited enqueued).1 (depStep reg visited enqueued).2
termination_by depMeasure reg visited enqueued
decreasing_by
  rename_i h
  have hmemAux : ∀ (xs seen : List String) (a : String),
      a ∈ jsDedupAux seen xs ↔ a ∈ xs ∧ a ∉ seen := by
    intro xs
    induction xs with
    | nil => intro seen a; simp [jsDedupAux]
    | cons x xs ih =>
      intro seen a
      by_cases hax : a = x
      · subst hax
        by_cases hx : a ∈ seen
        · simp only [jsDedupAux, if_pos hx, ih, List.mem_cons]
          tauto
        · simp only [jsDedupAux, if_neg hx, List.mem_cons, ih]
          tauto
      · by_cases hx : x ∈ seen
        · simp only [jsDedupAux, if_pos hx, ih, List.mem_cons]
          tauto
        · simp only [jsDedupAux, if_neg hx, List.mem_cons, ih]
          tauto
  have hmemDedup : ∀ (xs : List String) (a : String), a ∈ jsDedup xs ↔ a ∈ xs := by
    intro xs a; simp [jsDedup, hmemAux]
  have hchild : ∀ a : String,
      a ∈ (depStep reg visited enqueued).2 → a ∈ regVals reg ∧ a ∉ visited := by
    intro a ha
    simp only [depStep, List.mem_filter, hmemDedup] at ha
    obtain ⟨⟨hmem, -⟩, hnv⟩ := ha
    refine ⟨?_, by simpa using hnv⟩
    simp only [List.mem_flatten, List.mem_map] at hmem
    obtain ⟨l, ⟨c, -, rfl⟩, hal⟩ := hmem
    simp only [regVals, List.mem_toFinset, List.mem_flatten, List.mem_map]
    unfold regDeps at hal
    rcases hfind : List.find? (fun p => p.1 == c) reg with - | p
    · rw [hfind] at hal; cases hal
    · rw [hfind] at hal
      exact ⟨p.2, ⟨p, List.mem_of_find?_eq_some hfind, rfl⟩, hal⟩
  have hvfin : (depStep reg visited enqueued).1.toFinset
      = visited.toFinset ∪ enqueued.toFinset := by
    ext a
    simp [depStep, hmemDedup]
  have hefin : (depStep reg visited enqueued).2.toFinset
      ⊆ regVals reg \ visited.toFinset := by
    intro a ha
    rw [List.mem_toFinset] at ha
    obtain ⟨h1, h2⟩ := hchild a ha
    simp [Finset.mem_sdiff, h1, h2]
  set v' := (depStep reg visited enqueued).1
  set e' := (depStep reg visited enqueued).2
  have hW : regVals reg ∪ v'.toFinset ∪ e'.toFinset
      = regVals reg ∪ visited.toFinset ∪ enqueued.toFinset := by
    rw [hvfin]
    ext a
    have hx : a ∈ e'.toFinset → a ∈ regVals reg :=
      fun ha => (Finset.mem_sdiff.mp (hefin ha)).1
    simp only [Finset.mem_union]
    tauto
  simp only [depMeasure, if_neg h]
  by_cases hsub : enqueued.toFinset ⊆ visited.toFinset
  · -- the enqueued set already sits inside visited: the card is unchanged
    -- but the flag drops (the new queue is disjoint from visited).
    have hveq : v'.toFinset = visited.toFinset := by
      rw [hvfin, Finset.union_eq_left.mpr hsub]
    by_cases he : e' = []
    · rw [if_pos he]
      rw [if_pos hsub]
      omega
    · rw [if_neg he]
      have hflag : ¬ e'.toFinset ⊆ v'.toFinset := by
        intro hc
        rcases List.exists_mem_of_ne_nil e' he with ⟨a, ha⟩
        have := hc (List.mem_toFinset.mpr ha)
        rw [hveq, List.mem_toFinset] at this
        exact (hchild a ha).2 this
      rw [if_neg hflag, hW, hveq, if_pos hsub]
      omega
  · -- some enqueued coordinate is new: the unvisited card strictly drops.
    rw [if_neg hsub] at *
    obtain ⟨a, ha, hav⟩ : ∃ a, a ∈ enqueued.toFinset ∧ a ∉ visited.toFinset := by
      by_contra hc
      push_neg at hc
      exact hsub fun x hx => hc x hx
    have hmono : (regVals reg ∪ visited.toFinset ∪ enqueued.toFinset) \ v'.toFinset
        ⊂ (regVals reg ∪ visited.toFinset ∪ enqueued.toFinset) \ visited.toFinset := by
      rw [hvfin]
      constructor
      · intro x hx
        simp only [Finset.mem_sdiff, Finset.mem_union, not_or] at hx ⊢
        exact ⟨hx.1, hx.2.1⟩
      · intro hc
        have hamem : a ∈ (regVals reg ∪ visited.toFinset ∪ enqueued.toFinset)
            \ visited.toFinset := by
          simp only [Finset.mem_sdiff, Finset.mem_union]
          exact ⟨Or.inr ha, hav⟩
        have := hc hamem
        simp only [Finset.mem_sdiff, Finset.mem_union, not_or] at this
        exact this.2.2 ha
    have hcard := Finset.card_lt_card hmono
    by_cases he : e' = []
    · rw [if_pos he]
      omega
    · rw [if_neg he, hW]
      split <;> omega

/-- The `resolveDeps` entry point: the full dependency closure of the
given package coordinates, starting from an empty visited set. -/
def resolveDeps (reg : List (String × List String)) (packageCoordinates : List String) :
    List String :=
  dependencyResolver reg [] (jsDedup packageCoordinates)

/-- The context object built by `createContext`: it exposes a single
capability, the `schemaResolver` function. -/
structure FhirContext where
  schemaResolver : String → Option JValue

/-- JavaScript `Object.assign(target, src)` on schema maps: every
key/value pair of `src` is assigned into `target` in order, overwriting
existing keys. -/
def objAssign (target src : List (String × JValue)) : List (String × JValue) :=
  src.foldl (fun acc kv => objSet acc kv.1 kv.2) target

/-- The list of per-package schema maps loaded by `createContext`, in
dependency-resolution order; `pkg` gives each coordinate's fetch status
and decompressed package text. A failing package load rejects the whole
computation, as in the Node implementation. -/
def loadedSchemaMaps (reg : List (String × List String))
    (pkg : String → Bool × List Char) (parse : List Char → Option JValue)
    (coords : List String) : Except String (List (List (String × JValue))) :=
  (resolveDeps reg coords).mapM (fun c => loadPackageSchemasNode parse (pkg c).1 (pkg c).2)

/-- The merge loop of `createContext`: `Object.assign` each loaded map
into one accumulator, later packages overriding earlier ones. -/
def mergeSchemaMaps (maps : List (List (String × JValue))) : List (String × JValue) :=
  maps.foldl objAssign []

/-- The embedding of `createContext` (identical in `utils.js` and
`part_000`): resolve the dependency tree, load every package's schemas,
merge them into a single map, and return a context whose only capability
is a resolver that looks the requested name up in that map. -/
def createContext (reg : List (String × List String))
    (pkg : String → Bool × List Char) (parse : List Char → Option JValue)
    (coords : List String) : Except String FhirContext := do
  let maps ← loadedSchemaMaps reg pkg parse coords
  let allSchemas := mergeSchemaMaps maps
  .ok ⟨fun schemaName => jLookup allSchemas schemaName⟩

/-- The functions declared by the public type declaration file
`src/fhirschema-js/src/index.d.ts` (its only two `export function`
declarations). -/
def indexDtsDeclaredFunctions : List String :=
  ["enumerateElements", "validate"]

/-- The functions the test suite imports from `src/index.js`
(`src/fhirschema-js/tests/tests.test.js`, lines 2–6). -/
def testsImportedFunctions : List String :=
  ["validate", "enumerateElements", "validateElementValue"]

/-- Modelled from the spec: the three entry points of the external
interface (spec section 6); `src/index.js` itself is not among the
sources, so the exported runtime interface is taken from the spec and
the test imports. -/
def specEntryPoints : List String :=
  ["enumerateElements", "validate", "validateElementValue"]

/-- Plain reachability in the registry's dependency relation: the input
coordinates are reachable, and every recorded dependency of a reachable
coordinate is reachable. -/
inductive ReachPlain (reg : List (String × List String)) (inputs : List String) :
    String → Prop where
  | base (x : String) : x ∈ inputs → ReachPlain reg inputs x
  | step (y x : String) : ReachPlain reg inputs y → x ∈ regDeps reg y →
      ReachPlain reg inputs x

/-- Reachability as the loader actually explores it: dependencies equal
to the empty string (falsy coordinates) are dropped by the
`filter(identity)` step and never enqueued. -/
inductive ReachTruthy (reg : List (String × List String)) (inputs : List String) :
    String → Prop where
  | base (x : String) : x ∈ inputs → ReachTruthy reg inputs x
  | step (y x : String) : ReachTruthy reg inputs y → x ∈ regDeps reg y → x ≠ "" →
      ReachTruthy reg inputs x

/-- The suffix of the line list strictly after the first line containing
the delimiter marker (empty when no line contains it). -/
def linesAfterFirstDelimiter : List (List Char) → List (List Char)
  | [] => []
  | l :: rest =>
    if jsIncludes l delimiterChars then rest else linesAfterFirstDelimiter rest

/-- Consideration of a single post-delimiter line, spelled out without
the `pastDelimiter` flag: blank lines and lines containing the delimiter
marker are skipped, every other line is parsed and, when it has an
`elements` object or `kind` equal to `primitive-type`, stored under its
truthy `name` and `url` keys. -/
def considerLine (parse : List Char → Option JValue)
    (m : List (String × JValue)) (line : List Char) :
    Except String (List (String × JValue)) :=
  if jsBlank line then .ok m
  else if jsIncludes line delimiterChars then .ok m
  else
    match parse line with
    | none => .error "Failed to parse JSON"
    | some schema => do
      let elems ← jsMember schema "elements"
      let hasElements :=
        match elems with
        | some e => jsTruthy e && jsTypeofObject e && !jsIsArray e
        | none => false
      let kindv ← jsMember schema "kind"
      if hasElements || isPrimitiveKind kindv then do
        let namev ← jsMember schema "name"
        let m1 :=
          match namev with
          | some n => if jsTruthy n then objSet m (jsToString n) schema else m
          | none => m
        let urlv ← jsMember schema "url"
        let m2 :=
          match urlv with
          | some u => if jsTruthy u then objSet m1 (jsToString u) schema else m1
          | none => m1
        .ok m2
      else .ok m

/-- The schema map accumulated by considering a list of lines in order,
starting from `m`. -/
def postDelimiterSchemas (parse : List Char → Option JValue)
    (m : List (String × JValue)) (ls : List (List Char)) :
    Except String (List (String × JValue)) :=
  ls.foldlM (considerLine parse) m

/-- The claim's retention predicate for a map entry: the value has an
`elements` property that is an object (hence not an array and not null)
or its `kind` property equals `primitive-type`. -/
def claimRetainable (v : JValue) : Bool :=
  match v with
  | .obj kvs =>
    (match jLookup kvs "elements" with
     | some (.obj _) => true
     | _ => false) || isPrimitiveKind (jLookup kvs "kind")
  | _ => false

/-- The schema a given line contributes to the map, if any: `none` for
blank lines, delimiter-marker lines, unparsable lines and lines whose
parse is not retainable. -/
def retainedSchema (parse : List Char → Option JValue) (line : List Char) :
    Option JValue :=
  if jsBlank line then none
  else if jsIncludes line delimiterChars then none
  else
    match parse line with
    | some schema => if claimRetainable schema then some schema else none
    | none => none

/-- The map keys a retained schema is stored under: its stringified
`name` when truthy, then its stringified `url` when truthy. -/
def schemaKeys (s : JValue) : List String :=
  match s with
  | .obj kvs =>
    (match jLookup kvs "name" with
     | some n => if jsTruthy n then [jsToString n] else []
     | none => []) ++
    (match jLookup kvs "url" with
     | some u => if jsTruthy u then [jsToString u] else []
     | none => [])
  | _ => []

/-- The map keys a given line inserts into the schema map. -/
def insertedKeys (parse : List Char → Option JValue) (line : List Char) :
    List String :=
  match retainedSchema parse line with
  | some s => schemaKeys s
  | none => []

mutual

/-- Structural equality of JSON values, used for `fixed` value checks
(spec section 4.3: fixed value exact-equality). -/
def jEq : JValue → JValue → Bool
  | .null, .null => true
  | .bool a, .bool b => a == b
  | .num a, .num b => a == b
  | .str a, .str b => a == b
  | .arr xs, .arr ys => jEqList xs ys
  | .obj xs, .obj ys => jEqKvs xs ys
  | _, _ => false

/-- Pointwise structural equality of JSON arrays. -/
def jEqList : List JValue → List JValue → Bool
  | [], [] => true
  | x :: xs, y :: ys => jEq x y && jEqList xs ys
  | _, _ => false

/-- Pointwise structural equality of JSON objects (key order included). -/
def jEqKvs : List (String × JValue) → List (String × JValue) → Bool
  | [], [] => true
  | (k1, v1) :: xs, (k2, v2) :: ys => k1 == k2 && jEq v1 v2 && jEqKvs xs ys
  | _, _ => false

end

mutual

/-- Partial structural match of a value against a `pattern` value (spec
section 4.3): every field of an object pattern must be present and match
in the value, extra sibling fields are permitted; arrays match pointwise
with equal length; primitives match by equality. -/
def jMatches : JValue → JValue → Bool
  | .obj ps, .obj kvs => jMatchesKvs ps kvs
  | .arr ps, .arr vs => jMatchesList ps vs
  | p, v => jEq p v

/-- Pointwise pattern match of JSON arrays. -/
def jMatchesList : List JValue → List JValue → Bool
  | [], [] => true
  | p :: ps, v :: vs => jMatches p v && jMatchesList ps vs
  | _, _ => false

/-- Pattern match of an object pattern's fields against a value object. -/
def jMatchesKvs : List (String × JValue) → List (String × JValue) → Bool
  | [], _ => true
  | (k, p) :: rest, kvs =>
    (match jLookup kvs k with
     | some v => jMatches p v
     | none => false) && jMatchesKvs rest kvs

end

/-- Modelled from the spec: slice discriminator metadata (spec section 3,
Enumerated Element: a mapping from slice name to `url`/`min`/`max`). -/
structure SliceDef where
  url : Option String := none
  minCard : Option Nat := none
  maxCard : Option Nat := none

/-- Modelled from the spec: the scalar attributes of an Element
Definition (spec section 3); `none` models an absent attribute, and an
absent `maxCard` models the unbounded marker. -/
structure ElemAttrs where
  typeName : Option String := none
  isArray : Option Bool := none
  minCard : Option Nat := none
  maxCard : Option Nat := none
  fixedVal : Option JValue := none
  patternVal : Option JValue := none
  requiredElems : List String := []
  excludedElems : List String := []
  choices : Option (List String) := none
  choiceOf : Option String := none

/-- Modelled from the spec: an Element Definition (spec section 3), with
recursively nested `elements` for composite types and slice definitions
keyed by slice name. -/
inductive ElementDef where
  | mk (attrs : ElemAttrs) (elements : List (String × ElementDef))
      (slices : List (String × SliceDef))

/-- The scalar attributes of an element definition. -/
def ElementDef.attrs : ElementDef → ElemAttrs
  | .mk a _ _ => a

/-- The nested element definitions of an element definition. -/
def ElementDef.elements : ElementDef → List (String × ElementDef)
  | .mk _ e _ => e

/-- The slice definitions of an element definition. -/
def ElementDef.slices : ElementDef → List (String × SliceDef)
  | .mk _ _ s => s

/-- Modelled from the spec: a schema (spec section 3) with optional
parent (`base`), kind, element definitions, and required/excluded element
name sets; the schema's name and URL are the resolver map's keys. -/
structure FhirSchema where
  base : Option String := none
  kind : Option String := none
  elements : List (String × ElementDef) := []
  requiredElems : List String := []
  excludedElems : List String := []

/-- Modelled from the spec: an Enumerated Element (spec section 3): the
element definition's attributes plus `definedIn` provenance and merged
slice metadata, with recursively enumerated nested elements. -/
inductive EnumElement where
  | mk (attrs : ElemAttrs) (definedIn : List String)
      (elements : List (String × EnumElement)) (slices : List (String × SliceDef))

/-- The scalar attributes of an enumerated element. -/
def EnumElement.attrs : EnumElement → ElemAttrs
  | .mk a _ _ _ => a

/-- The provenance list of an enumerated element. -/
def EnumElement.definedIn : EnumElement → List String
  | .mk _ d _ _ => d

/-- The nested enumerated elements of an enumerated element. -/
def EnumElement.elements : EnumElement → List (String × EnumElement)
  | .mk _ _ e _ => e

/-- The merged slice definitions of an enumerated element. -/
def EnumElement.slices : EnumElement → List (String × SliceDef)
  | .mk _ _ _ s => s

/-- First-match lookup in a generic association list keyed by strings. -/
def aLookup {α : Type} : List (String × α) → String → Option α
  | [], _ => none
  | (k', v) :: rest, k => if k' = k then some v else aLookup rest k

/-- The schema resolver capability: an in-memory map from schema name or
URL to schema definition, queried by first match (how the test suite and
`createContext` build resolvers). -/
def lookupSchema (res : List (String × FhirSchema)) (n : String) : Option FhirSchema :=
  match res.find? (fun p => p.1 == n) with
  | some p => some p.2
  | none => none

/-- Order-preserving union of name lists: keeps `xs` and appends the
members of `ys` not already present (spec section 4.1, deep-merge of
`required`/`excluded` sets). -/
def unionKeep (xs ys : List String) : List String :=
  xs ++ ys.filter (fun y => !(xs.contains y))

/-- Append one name unless already present (spec section 4.1: `definedIn`
gets each contributing schema once, first-seen order preserved). -/
def appendIfAbsent (xs : List String) (x : String) : List String :=
  if xs.contains x then xs else xs ++ [x]

/-- Modelled from the spec: merge of two attribute records where the
later contribution `b` replaces scalar attributes it defines and unions
the `required`/`excluded` name sets (spec section 4.1, step 3). -/
def mergeAttrs (a b : ElemAttrs) : ElemAttrs where
  typeName := b.typeName.or a.typeName
  isArray := b.isArray.or a.isArray
  minCard := b.minCard.or a.minCard
  maxCard := b.maxCard.or a.maxCard
  fixedVal := b.fixedVal.or a.fixedVal
  patternVal := b.patternVal.or a.patternVal
  requiredElems := unionKeep a.requiredElems b.requiredElems
  excludedElems := unionKeep a.excludedElems b.excludedElems
  choices := b.choices.or a.choices
  choiceOf := b.choiceOf.or a.choiceOf

/-- Replace the value stored under `k` in an association list, keeping
its position. -/
def replaceKey {α : Type} (xs : List (String × α)) (k : String) (v : α) :
    List (String × α) :=
  xs.map (fun p => if p.1 = k then (k, v) else p)

/-- Merge slice definitions: later same-named slices override earlier
ones, new slices are appended (spec section 4.1, step 5). -/
def mergeSlices : List (String × SliceDef) → List (String × SliceDef) →
    List (String × SliceDef)
  | olds, [] => olds
  | olds, (k, s) :: rest =>
    mergeSlices (if (aLookup olds k).isSome then replaceKey olds k s else olds ++ [(k, s)])
      rest

mutual

/-- A fresh enumerated element contributed by schema `sid` from one of
its element definitions. -/
def elemToEnum (sid : String) (d : ElementDef) : EnumElement :=
  match d with
  | .mk attrs elems slices => .mk attrs [sid] (elemListToEnum sid elems) slices

/-- Fresh enumeration of a list of element definitions. -/
def elemListToEnum (sid : String) : List (String × ElementDef) →
    List (String × EnumElement)
  | [] => []
  | (k, d) :: rest => (k, elemToEnum sid d) :: elemListToEnum sid rest

/-- Modelled from the spec: merge a later element definition (from schema
`sid`) into an already enumerated element: deep-merge of attributes,
provenance extended with `sid`, nested elements merged recursively, and
slice definitions overridden by name (spec section 4.1, step 3). -/
def mergeEnum (old : EnumElement) (sid : String) (d : ElementDef) : EnumElement :=
  match d with
  | .mk attrs elems slices =>
    .mk (mergeAttrs old.attrs attrs) (appendIfAbsent old.definedIn sid)
      (mergeEnumList old.elements sid elems) (mergeSlices old.slices slices)

/-- Merge a schema's element definition list into an enumerated element
map: existing names are deep-merged in place, new names are appended in
order. -/
def mergeEnumList (olds : List (String × EnumElement)) (sid : String) :
    List (String × ElementDef) → List (String × EnumElement)
  | [] => olds
  | (k, d) :: rest =>
    mergeEnumList
      (match aLookup olds k with
       | some old => replaceKey olds k (mergeEnum old sid d)
       | none => olds ++ [(k, elemToEnum sid d)])
      sid rest

end

mutual

/-- Merge of two enumerated elements, the second overriding the first,
used when an element's inline nested definitions refine its declared
type's enumerated tree. -/
def mergeEnumTree (a b : EnumElement) : EnumElement :=
  match b with
  | .mk attrs dIn elems slices =>
    .mk (mergeAttrs a.attrs attrs) (unionKeep a.definedIn dIn)
      (mergeEnumTreeList a.elements elems) (mergeSlices a.slices slices)

/-- Merge of two enumerated element maps, the second overriding the
first name-by-name. -/
def mergeEnumTreeList (olds : List (String × EnumElement)) :
    List (String × EnumElement) → List (String × EnumElement)
  | [] => olds
  | (k, e) :: rest =>
    mergeEnumTreeList
      (match aLookup olds k with
       | some old => replaceKey olds k (mergeEnumTree old e)
       | none => olds ++ [(k, e)])
      rest

end

/-- A validation error (spec sections 3 and 7): an error kind, the
offending path, and an optional message. -/
structure VError where
  errType : String
  path : List String
  message : Option String := none
deriving DecidableEq

/-- The result returned by the validation entry points: a list of
validation errors, empty on success. -/
structure ValidationResult where
  errors : List VError
deriving DecidableEq

/-- Shorthand for a validation error with no message. -/
def mkErr (t : String) (path : List String) : VError :=
  ⟨t, path, none⟩

/-- Modelled from the spec: resolution of a schema's `base` chain (spec
section 4.1, step 2): produces the ordered ancestor chain root-first
followed by the schema itself, failing with `SchemaNotFound` on an
unresolvable name and with `CyclicBase` when the chain revisits a name
already on it (detected via the visited set). -/
def resolveChain (res : List (String × FhirSchema)) (visited : List String)
    (name : String) : Except VError (List (String × FhirSchema)) :=
  if hv : name ∈ visited then .error (mkErr "CyclicBase" [name])
  else
    match hl : lookupSchema res name with
    | none => .error (mkErr "SchemaNotFound" [name])
    | some sch =>
      match sch.base with
      | none => .ok [(name, sch)]
      | some b => (resolveChain res (name :: visited) b).map (fun c => c ++ [(name, sch)])
termination_by ((res.map Prod.fst).toFinset \ visited.toFinset).card
decreasing_by
  have hk : name ∈ (res.map Prod.fst).toFinset := by
    rw [List.mem_toFinset, List.mem_map]
    unfold lookupSchema at hl
    rcases hfind : List.find? (fun p => p.1 == name) res with - | p
    · rw [hfind] at hl; cases hl
    · rw [hfind] at hl
      have hmem := List.mem_of_find?_eq_some hfind
      have hpred := List.find?_some hfind
      refine ⟨p, hmem, ?_⟩
      exact beq_iff_eq.mp (by simpa using hpred)
  apply Finset.card_lt_card
  rw [List.toFinset_cons]
  constructor
  · intro a ha
    rw [Finset.mem_sdiff] at ha ⊢
    refine ⟨ha.1, fun hc => ha.2 (Finset.mem_insert_of_mem hc)⟩
  · intro hc
    have hmem : name ∈ (res.map Prod.fst).toFinset \ visited.toFinset := by
      rw [Finset.mem_sdiff]
      exact ⟨hk, fun h => hv (List.mem_toFinset.mp h)⟩
    have := hc hmem
    rw [Finset.mem_sdiff] at this
    exact this.2 (Finset.mem_insert_self _ _)

/-- The concatenated base chains of the requested schema names in caller
order (spec section 4.1, steps 1–2): the merge order over which elements
and required/excluded sets are accumulated. -/
def schemaChains (res : List (String × FhirSchema)) (names : List String) :
    Except VError (List (String × FhirSchema)) :=
  names.foldlM (fun acc n => (resolveChain res [] n).map (fun c => acc ++ c)) []

/-- Modelled from the spec: the Element Enumerator entry point (spec
sections 4.1 and 6): one merged, inheritance-flattened enumerated
element map for the requested schema names. -/
def enumerateElements (res : List (String × FhirSchema)) (names : List String) :
    Except VError (List (String × EnumElement)) :=
  (schemaChains res names).map
    (fun chain => chain.foldl (fun acc p => mergeEnumList acc p.1 p.2.elements) [])

/-- The effective (merged) required element names of the requested
schemas, accumulated across the same chains as the element merge. -/
def effectiveRequired (res : List (String × FhirSchema)) (names : List String) :
    Except VError (List String) :=
  (schemaChains res names).map
    (fun chain => chain.foldl (fun acc p => unionKeep acc p.2.requiredElems) [])

/-- The effective (merged) excluded element names of the requested
schemas. -/
def effectiveExcluded (res : List (String × FhirSchema)) (names : List String) :
    Except VError (List String) :=
  (schemaChains res names).map
    (fun chain => chain.foldl (fun acc p => unionKeep acc p.2.excludedElems) [])

/-- Modelled from the spec: primitive type conformance, a representation
check per declared type (spec section 4.3): boolean and numeric
primitives require the matching JSON shape, every other primitive type
is string-represented. -/
def primitiveOk (t : String) (v : JValue) : Bool :=
  match t with
  | "boolean" => match v with | .bool _ => true | _ => false
  | "integer" => match v with | .num _ => true | _ => false
  | "positiveInt" => match v with | .num n => 0 < n | _ => false
  | "unsignedInt" => match v with | .num n => 0 ≤ n | _ => false
  | "decimal" => match v with | .num _ => true | _ => false
  | _ => match v with | .str _ => true | _ => false

/-- How many members of a choice group are present in a data object. -/
def countPresent (members : List String) (kvs : List (String × JValue)) : Nat :=
  (members.filter (fun m => (jLookup kvs m).isSome)).length

/-- Unknown-field check (spec section 4.2): every data key without a
corresponding enumerated element is reported. -/
def unknownErrs (tree : List (String × EnumElement)) (path : List String)
    (kvs : List (String × JValue)) : List VError :=
  kvs.filterMap (fun kv =>
    if (aLookup tree kv.1).isSome then none
    else some (mkErr "UnknownElement" (path ++ [kv.1])))

/-- Required-element check (spec section 4.2): an element of the merged
required set must be present; a required choice group requires exactly
one of its members. -/
def requiredErrs (tree : List (String × EnumElement)) (req : List String)
    (path : List String) (kvs : List (String × JValue)) : List VError :=
  req.filterMap (fun r =>
    match aLookup tree r with
    | some e =>
      match e.attrs.choices with
      | some members =>
        if countPresent members kvs = 1 then none
        else some (mkErr "RequiredElementMissing" (path ++ [r]))
      | none =>
        if (jLookup kvs r).isSome then none
        else some (mkErr "RequiredElementMissing" (path ++ [r]))
    | none =>
      if (jLookup kvs r).isSome then none
      else some (mkErr "RequiredElementMissing" (path ++ [r])))

/-- Excluded-element check (spec section 4.2). -/
def excludedErrs (excl : List String) (path : List String)
    (kvs : List (String × JValue)) : List VError :=
  excl.filterMap (fun x =>
    if (jLookup kvs x).isSome then some (mkErr "ExcludedElementPresent" (path ++ [x]))
    else none)

/-- Choice-exclusivity check (spec section 4.2): at most one member of a
choice group may be present. -/
def choiceErrs (tree : List (String × EnumElement)) (path : List String)
    (kvs : List (String × JValue)) : List VError :=
  tree.filterMap (fun p =>
    match p.2.attrs.choices with
    | some members =>
      if 1 < countPresent members kvs then some (mkErr "ChoiceConflict" (path ++ [p.1]))
      else none
    | none => none)

/-- Array cardinality check against the element-level `min`/`max` (spec
section 4.2). -/
def cardinalityErrs (e : EnumElement) (path : List String) (n : Nat) : List VError :=
  (match e.attrs.minCard with
   | some m => if n < m then [mkErr "CardinalityError" path] else []
   | none => []) ++
  (match e.attrs.maxCard with
   | some m => if m < n then [mkErr "CardinalityError" path] else []
   | none => [])

/-- Discriminator match of one array entry against a slice: the entry's
`url` field equals the slice's declared `url` (spec section 4.2, slice
matching for extension-shaped slices). -/
def sliceMatches (sd : SliceDef) (item : JValue) : Bool :=
  match sd.url with
  | some u =>
    match item with
    | .obj kvs =>
      match jLookup kvs "url" with
      | some (.str s) => s = u
      | _ => false
    | _ => false
  | none => false

/-- Per-slice matched-count check against the slice's own `min`/`max`
(spec section 4.2); unmatched entries are not an error by themselves. -/
def sliceErrs (e : EnumElement) (path : List String) (items : List JValue) :
    List VError :=
  e.slices.filterMap (fun p =>
    let c := (items.filter (fun it => sliceMatches p.2 it)).length
    let minBad := match p.2.minCard with | some m => decide (c < m) | none => false
    let maxBad := match p.2.maxCard with | some m => decide (m < c) | none => false
    if minBad || maxBad then some (mkErr "SliceCardinalityError" (path ++ [p.1]))
    else none)

/-- Fixed-value check (spec section 4.3): exact structural equality. -/
def fixedErrs (e : EnumElement) (path : List String) (v : JValue) : List VError :=
  match e.attrs.fixedVal with
  | some f => if jEq v f then [] else [mkErr "FixedValueMismatch" path]
  | none => []

/-- Pattern-value check (spec section 4.3): partial structural match. -/
def patternErrs (e : EnumElement) (path : List String) (v : JValue) : List VError :=
  match e.attrs.patternVal with
  | some p => if jMatches p v then [] else [mkErr "PatternMismatch" path]
  | none => []

mutual

/-- Modelled from the spec: the Document Validator's per-object pass
(spec section 4.2): unknown-field, required, excluded and
choice-exclusivity checks over the object, then per-field validation in
field order. -/
def validateObject (res : List (String × FhirSchema))
    (tree : List (String × EnumElement)) (req excl : List String)
    (path : List String) (kvs : List (String × JValue)) : List VError :=
  unknownErrs tree path kvs ++ requiredErrs tree req path kvs
    ++ excludedErrs excl path kvs ++ choiceErrs tree path kvs
    ++ validateFields res tree path kvs
termination_by 2 * sizeOf kvs + 1
decreasing_by
  all_goals
    simp_wf <;> (try simp only [Prod.mk.sizeOf_spec, List.cons.sizeOf_spec] at *) <;> omega

/-- Per-field validation (spec section 4.2): an array-flagged element
requires a sequence value (checked for element-level cardinality and
per-slice counts, then per entry), a scalar element requires a
non-sequence value. -/
def validateFields (res : List (String × FhirSchema))
    (tree : List (String × EnumElement)) (path : List String)
    (fields : List (String × JValue)) : List VError :=
  match fields with
  | [] => []
  | (k, v) :: rest =>
    (match aLookup tree k with
     | none => []
     | some e =>
       if e.attrs.isArray = some true then
         match v with
         | .arr items =>
           cardinalityErrs e (path ++ [k]) items.length
             ++ sliceErrs e (path ++ [k]) items
             ++ validateItems res e (path ++ [k]) 0 items
         | _ => [mkErr "TypeMismatch" (path ++ [k])]
       else
         match v with
         | .arr _ => [mkErr "TypeMismatch" (path ++ [k])]
         | w => validateSingle res e (path ++ [k]) w)
      ++ validateFields res tree path rest
termination_by 2 * sizeOf fields
decreasing_by
  all_goals
    simp_wf <;>
      (try simp only [Prod.mk.sizeOf_spec, List.cons.sizeOf_spec, JValue.arr.sizeOf_spec] at *) <;>
      omega

/-- Validation of each entry of an array value against the element
definition, with the entry index appended to the path. -/
def validateItems (res : List (String × FhirSchema)) (e : EnumElement)
    (path : List String) (idx : Nat) (items : List JValue) : List VError :=
  match items with
  | [] => []
  | item :: rest =>
    validateSingle res e (path ++ [toString idx]) item
      ++ validateItems res e path (idx + 1) rest
termination_by 2 * sizeOf items
decreasing_by
  all_goals
    simp_wf <;> (try simp only [Prod.mk.sizeOf_spec, List.cons.sizeOf_spec] at *) <;> omega

/-- Modelled from the spec: validation of a single value occurrence
against one enumerated element (spec sections 4.2 and 4.3): fixed and
pattern checks, then the type/shape check — primitive types check the
value representation, complex types enumerate the type's tree (merged
with the element's inline nested elements) and recurse, a typeless
element with inline elements recurses into them, and a typeless element
without them dispatches on the value's `resourceType` discriminator
(spec section 4.2, bundle/resource polymorphism), scoped errors being
reported without aborting siblings. -/
def validateSingle (res : List (String × FhirSchema)) (e : EnumElement)
    (path : List String) (v : JValue) : List VError :=
  fixedErrs e path v ++ patternErrs e path v ++
    (match e.attrs.typeName with
     | some t =>
       match lookupSchema res t with
       | none => [mkErr "SchemaNotFound" path]
       | some sch =>
         if sch.kind = some "primitive-type" then
           if primitiveOk t v then [] else [mkErr "TypeMismatch" path]
         else
           match v with
           | .obj kvs =>
             match enumerateElements res [t], effectiveRequired res [t],
                 effectiveExcluded res [t] with
             | .ok tree0, .ok req0, .ok excl0 =>
               validateObject res (mergeEnumTreeList tree0 e.elements)
                 (unionKeep req0 e.attrs.requiredElems)
                 (unionKeep excl0 e.attrs.excludedElems) path kvs
             | .error err, _, _ => [err]
             | _, .error err, _ => [err]
             | _, _, .error err => [err]
           | _ => [mkErr "TypeMismatch" path]
     | none =>
       match v with
       | .obj kvs =>
         if e.elements.isEmpty then
           match jLookup kvs "resourceType" with
           | some (.str rt) =>
             match enumerateElements res [rt], effectiveRequired res [rt],
                 effectiveExcluded res [rt] with
             | .ok tree0, .ok req0, .ok excl0 =>
               validateObject res tree0 req0 excl0 path
                 (kvs.filter (fun p => p.1 ≠ "resourceType"))
             | .error err, _, _ => [err]
             | _, .error err, _ => [err]
             | _, _, .error err => [err]
           | _ => []
         else
           validateObject res e.elements e.attrs.requiredElems
             e.attrs.excludedElems path kvs
       | _ => if e.elements.isEmpty then [] else [mkErr "TypeMismatch" path])
termination_by 2 * sizeOf v + 1
decreasing_by
  all_goals
    have hf : ∀ (l : List (String × JValue)) (f : String × JValue → Bool),
        sizeOf (l.filter f) ≤ sizeOf l := by
      intro l f
      induction l with
      | nil => simp
      | cons x xs ih =>
        by_cases hx : f x
        · simp only [List.filter_cons, if_pos hx]
          simp only [List.cons.sizeOf_spec]
          omega
        · simp only [List.filter_cons, if_neg hx]
          simp only [List.cons.sizeOf_spec]
          omega
    simp_wf <;>
      (try simp only [Prod.mk.sizeOf_spec, List.cons.sizeOf_spec, JValue.obj.sizeOf_spec] at *) <;>
      (first
        | omega
        | (have hq := hf kvs (fun p => !decide (p.1 = "resourceType")); omega))

end

/-- Modelled from the spec: the Document Validator entry point (spec
sections 4.2 and 6): enumerate the requested schemas (an enumeration
failure is reported in the returned error list, never thrown), then walk
the document; a non-object document cannot match a schema's element set.
Always returns a `ValidationResult`. -/
def validate (res : List (String × FhirSchema)) (names : List String)
    (data : JValue) : ValidationResult :=
  match enumerateElements res names, effectiveRequired res names,
      effectiveExcluded res names with
  | .ok tree, .ok req, .ok excl =>
    match data with
    | .obj kvs => ⟨validateObject res tree req excl [] kvs⟩
    | _ => ⟨[mkErr "TypeMismatch" []]⟩
  | .error e, _, _ => ⟨[e]⟩
  | _, .error e, _ => ⟨[e]⟩
  | _, _, .error e => ⟨[e]⟩

/-- Resolution of a path of element names through the enumerated tree,
traversing nested composites (spec section 4.3). -/
def resolveElementPath : List (String × EnumElement) → List String →
    Option EnumElement
  | _, [] => none
  | tree, p :: rest =>
    match aLookup tree p with
    | none => none
    | some e => if rest.isEmpty then some e else resolveElementPath e.elements rest

/-- Modelled from the spec: the Element Value Validator entry point (spec
sections 4.3 and 6): enumerate the requested schemas, resolve the
addressed enumerated element (an unresolvable path reports `InvalidPath`
and short-circuits), then validate the single value against it. Always
returns a `ValidationResult`. -/
def validateElementValue (res : List (String × FhirSchema)) (names : List String)
    (path : List String) (value : JValue) : ValidationResult :=
  match enumerateElements res names with
  | .error e => ⟨[e]⟩
  | .ok tree =>
    match resolveElementPath tree path with
    | none => ⟨[mkErr "InvalidPath" path]⟩
    | some e => ⟨validateSingle res e path value⟩

/-- Conformance mirror of `unknownErrs`: every data key has an
enumerated element. -/
def unknownOk (tree : List (String × EnumElement))
    (kvs : List (String × JValue)) : Bool :=
  kvs.all (fun kv => (aLookup tree kv.1).isSome)

/-- Conformance mirror of `requiredErrs`: every required element is
present, required choice groups having exactly one present member. -/
def requiredOk (tree : List (String × EnumElement)) (req : List String)
    (kvs : List (String × JValue)) : Bool :=
  req.all (fun r =>
    match aLookup tree r with
    | some e =>
      match e.attrs.choices with
      | some members => countPresent members kvs = 1
      | none => (jLookup kvs r).isSome
    | none => (jLookup kvs r).isSome)

/-- Conformance mirror of `excludedErrs`: no excluded element is present. -/
def excludedOk (excl : List String) (kvs : List (String × JValue)) : Bool :=
  excl.all (fun x => !(jLookup kvs x).isSome)

/-- Conformance mirror of `choiceErrs`: every choice group has at most
one present member. -/
def choiceOk (tree : List (String × EnumElement))
    (kvs : List (String × JValue)) : Bool :=
  tree.all (fun p =>
    match p.2.attrs.choices with
    | some members => countPresent members kvs ≤ 1
    | none => true)

/-- Conformance mirror of `cardinalityErrs`: the sequence length honours
the element-level bounds. -/
def cardinalityOk (e : EnumElement) (n : Nat) : Bool :=
  (match e.attrs.minCard with
   | some m => decide (m ≤ n)
   | none => true) &&
  (match e.attrs.maxCard with
   | some m => decide (n ≤ m)
   | none => true)

/-- Conformance mirror of `sliceErrs`: every slice's matched count
honours the slice's bounds. -/
def slicesOk (e : EnumElement) (items : List JValue) : Bool :=
  e.slices.all (fun p =>
    let c := (items.filter (fun it => sliceMatches p.2 it)).length
    (match p.2.minCard with | some m => decide (m ≤ c) | none => true) &&
    (match p.2.maxCard with | some m => decide (c ≤ m) | none => true))

/-- Conformance mirror of `fixedErrs`. -/
def fixedOk (e : EnumElement) (v : JValue) : Bool :=
  match e.attrs.fixedVal with
  | some f => jEq v f
  | none => true

/-- Conformance mirror of `patternErrs`. -/
def patternOk (e : EnumElement) (v : JValue) : Bool :=
  match e.attrs.patternVal with
  | some p => jMatches p v
  | none => true

mutual

/-- Modelled from the spec: structural conformance of a data object to
an enumerated element set (spec section 8, empty on conformance): all
object-level checks pass and every field conforms. -/
def conformsObject (res : List (String × FhirSchema))
    (tree : List (String × EnumElement)) (req excl : List String)
    (kvs : List (String × JValue)) : Bool :=
  unknownOk tree kvs && requiredOk tree req kvs && excludedOk excl kvs
    && choiceOk tree kvs && conformsFields res tree kvs
termination_by 2 * sizeOf kvs + 1
decreasing_by
  all_goals
    simp_wf <;> (try simp only [Prod.mk.sizeOf_spec, List.cons.sizeOf_spec] at *) <;> omega

/-- Conformance of each data field to its enumerated element. -/
def conformsFields (res : List (String × FhirSchema))
    (tree : List (String × EnumElement))
    (fields : List (String × JValue)) : Bool :=
  match fields with
  | [] => true
  | (k, v) :: rest =>
    (match aLookup tree k with
     | none => true
     | some e =>
       if e.attrs.isArray = some true then
         match v with
         | .arr items =>
           cardinalityOk e items.length && slicesOk e items
             && conformsItems res e items
         | _ => false
       else
         match v with
         | .arr _ => false
         | w => conformsSingle res e w)
      && conformsFields res tree rest
termination_by 2 * sizeOf fields
decreasing_by
  all_goals
    simp_wf <;>
      (try simp only [Prod.mk.sizeOf_spec, List.cons.sizeOf_spec, JValue.arr.sizeOf_spec] at *) <;>
      omega

/-- Conformance of every entry of an array value. -/
def conformsItems (res : List (String × FhirSchema)) (e : EnumElement)
    (items : List JValue) : Bool :=
  match items with
  | [] => true
  | item :: rest => conformsSingle res e item && conformsItems res e rest
termination_by 2 * sizeOf items
decreasing_by
  all_goals
    simp_wf <;> (try simp only [Prod.mk.sizeOf_spec, List.cons.sizeOf_spec] at *) <;> omega

/-- Conformance of a single value occurrence to one enumerated element,
mirroring `validateSingle` check by check. -/
def conformsSingle (res : List (String × FhirSchema)) (e : EnumElement)
    (v : JValue) : Bool :=
  fixedOk e v && patternOk e v &&
    (match e.attrs.typeName with
     | some t =>
       match lookupSchema res t with
       | none => false
       | some sch =>
         if sch.kind = some "primitive-type" then primitiveOk t v
         else
           match v with
           | .obj kvs =>
             match enumerateElements res [t], effectiveRequired res [t],
                 effectiveExcluded res [t] with
             | .ok tree0, .ok req0, .ok excl0 =>
               conformsObject res (mergeEnumTreeList tree0 e.elements)
                 (unionKeep req0 e.attrs.requiredElems)
                 (unionKeep excl0 e.attrs.excludedElems) kvs
             | .error _, _, _ => false
             | _, .error _, _ => false
             | _, _, .error _ => false
           | _ => false
     | none =>
       match v with
       | .obj kvs =>
         if e.elements.isEmpty then
           match jLookup kvs "resourceType" with
           | some (.str rt) =>
             match enumerateElements res [rt], effectiveRequired res [rt],
                 effectiveExcluded res [rt] with
             | .ok tree0, .ok req0, .ok excl0 =>
               conformsObject res tree0 req0 excl0
                 (kvs.filter (fun p => p.1 ≠ "resourceType"))
             | .error _, _, _ => false
             | _, .error _, _ => false
             | _, _, .error _ => false
           | _ => true
         else
           conformsObject res e.elements e.attrs.requiredElems
             e.attrs.excludedElems kvs
       | _ => e.elements.isEmpty)
termination_by 2 * sizeOf v + 1
decreasing_by
  all_goals
    have hf : ∀ (l : List (String × JValue)) (f : String × JValue → Bool),
        sizeOf (l.filter f) ≤ sizeOf l := by
      intro l f
      induction l with
      | nil => simp
      | cons x xs ih =>
        by_cases hx : f x
        · simp only [List.filter_cons, if_pos hx]
          simp only [List.cons.sizeOf_spec]
          omega
        · simp only [List.filter_cons, if_neg hx]
          simp only [List.cons.sizeOf_spec]
          omega
    simp_wf <;>
      (try simp only [Prod.mk.sizeOf_spec, List.cons.sizeOf_spec, JValue.obj.sizeOf_spec] at *) <;>
      (first
        | omega
        | (have hq := hf kvs (fun p => !decide (p.1 = "resourceType")); omega))

end

/-- Modelled from the spec: whole-document conformance — the requested
schemas enumerate successfully and the document object passes every
check (spec section 8). -/
def conformsDocument (res : List (String × FhirSchema)) (names : List String)
    (data : JValue) : Bool :=
  match enumerateElements res names, effectiveRequired res names,
      effectiveExcluded res names with
  | .ok tree, .ok req, .ok excl =>
    match data with
    | .obj kvs => conformsObject res tree req excl kvs
    | _ => false
  | _, _, _ => false

/-- Modelled from the spec: conformance of a single element value — the
schemas enumerate, the path resolves, and the value passes the element's
checks (spec section 4.3). -/
def conformsElementValue (res : List (String × FhirSchema)) (names : List String)
    (path : List String) (value : JValue) : Bool :=
  match enumerateElements res names with
  | .error _ => false
  | .ok tree =>
    match resolveElementPath tree path with
    | none => false
    | some e => conformsSingle res e value

theorem jsDedupAux_mem (xs : List String) : ∀ (seen : List String) (a : String),
    a ∈ jsDedupAux seen xs ↔ a ∈ xs ∧ a ∉ seen := by
  induction xs with
  | nil => intro seen a; simp [jsDedupAux]
  | cons x xs ih =>
    intro seen a
    by_cases hax : a = x
    · subst hax
      by_cases hx : a ∈ seen
      · simp only [jsDedupAux, if_pos hx, ih, List.mem_cons]
        tauto
      · simp only [jsDedupAux, if_neg hx, List.mem_cons, ih]
        tauto
    · by_cases hx : x ∈ seen
      · simp only [jsDedupAux, if_pos hx, ih, List.mem_cons]
        tauto
      · simp only [jsDedupAux, if_neg hx, List.mem_cons, ih]
        tauto

theorem jsDedup_mem (xs : List String) (a : String) : a ∈ jsDedup xs ↔ a ∈ xs := by
  simp [jsDedup, jsDedupAux_mem]

theorem jsDedupAux_nodup (xs : List String) : ∀ seen : List String,
    (jsDedupAux seen xs).Nodup := by
  induction xs with
  | nil => intro seen; simp [jsDedupAux]
  | cons x xs ih =>
    intro seen
    by_cases hx : x ∈ seen
    · simpa [jsDedupAux, if_pos hx] using ih seen
    · rw [jsDedupAux, if_neg hx]
      refine List.nodup_cons.mpr ⟨?_, ih (x :: seen)⟩
      rw [jsDedupAux_mem]
      simp

theorem jsDedup_nodup (xs : List String) : (jsDedup xs).Nodup :=
  jsDedupAux_nodup xs []

theorem not_includes_of_blank (l : List Char) (h : jsBlank l = true) :
    jsIncludes l delimiterChars = false := by
  by_contra hc
  rw [Bool.not_eq_false, jsIncludes, List.any_eq_true] at hc
  obtain ⟨t, ht, hp⟩ := hc
  rw [List.mem_tails] at ht
  rw [List.isPrefixOf_iff_prefix] at hp
  have hf : 'f' ∈ l := ht.subset (hp.subset (by decide))
  have := (List.all_eq_true.mp h) 'f' hf
  simp at this

theorem jLookup_objSet_self (m : List (String × JValue)) (k : String) (v : JValue) :
    jLookup (objSet m k v) k = some v := by
  induction m with
  | nil => simp [objSet, jLookup]
  | cons p rest ih =>
    by_cases hk : p.1 = k
    · simp [objSet, hk, jLookup]
    · simpa [objSet, hk, jLookup] using ih

theorem jLookup_objSet_ne (m : List (String × JValue)) (k k2 : String) (v : JValue)
    (h : k2 ≠ k) : jLookup (objSet m k v) k2 = jLookup m k2 := by
  have hk2 : k ≠ k2 := Ne.symm h
  induction m with
  | nil => simp [objSet, jLookup, hk2]
  | cons p rest ih =>
    by_cases hk : p.1 = k
    · simp [objSet, hk, jLookup, hk2]
    · simp [objSet, hk, jLookup, ih]

theorem mem_objSet (m : List (String × JValue)) (k : String) (v : JValue)
    (kv : String × JValue) (h : kv ∈ objSet m k v) : kv ∈ m ∨ kv.2 = v := by
  induction m with
  | nil => simp [objSet] at h; simp [h]
  | cons p rest ih =>
    by_cases hk : p.1 = k
    · rw [objSet, if_pos hk] at h
      rcases List.mem_cons.mp h with h1 | h1
      · right; rw [h1]
      · left; exact List.mem_cons_of_mem _ h1
    · rw [objSet, if_neg hk] at h
      rcases List.mem_cons.mp h with h1 | h1
      · left; exact h1 ▸ List.mem_cons_self _ _
      · rcases ih h1 with h2 | h2
        · left; exact List.mem_cons_of_mem _ h2
        · right; exact h2

theorem jLookup_foldl_objSet_not_mem (keys : List String) (s : JValue) (k : String)
    (h : k ∉ keys) : ∀ m : List (String × JValue),
    jLookup (keys.foldl (fun acc k2 => objSet acc k2 s) m) k = jLookup m k := by
  induction keys with
  | nil => intro m; simp
  | cons k0 ks ih =>
    intro m
    rw [List.mem_cons, not_or] at h
    rw [List.foldl_cons, ih h.2, jLookup_objSet_ne _ _ _ _ h.1]

theorem jLookup_foldl_objSet_mem (keys : List String) (s : JValue) (k : String)
    (h : k ∈ keys) : ∀ m : List (String × JValue),
    jLookup (keys.foldl (fun acc k2 => objSet acc k2 s) m) k = some s := by
  induction keys with
  | nil => simp at h
  | cons k0 ks ih =>
    intro m
    by_cases hks : k ∈ ks
    · rw [List.foldl_cons]
      exact ih hks _
    · have hk0 : k = k0 := by
        rcases List.mem_cons.mp h with h1 | h1
        · exact h1
        · exact absurd h1 hks
      subst hk0
      rw [List.foldl_cons, jLookup_foldl_objSet_not_mem ks s k hks,
        jLookup_objSet_self]

theorem mem_foldl_objSet (keys : List String) (s : JValue) (kv : String × JValue) :
    ∀ m : List (String × JValue),
    kv ∈ keys.foldl (fun acc k2 => objSet acc k2 s) m → kv ∈ m ∨ kv.2 = s := by
  induction keys with
  | nil => intro m h; exact Or.inl h
  | cons k0 ks ih =>
    intro m h
    rw [List.foldl_cons] at h
    rcases ih _ h with h1 | h1
    · exact mem_objSet _ _ _ _ h1
    · exact Or.inr h1

theorem hasElements_eq_retainCheck (kvs : List (String × JValue)) :
    (match jLookup kvs "elements" with
     | some e => jsTruthy e && jsTypeofObject e && !jsIsArray e
     | none => false) =
    (match jLookup kvs "elements" with
     | some (.obj _) => true
     | _ => false) := by
  rcases jLookup kvs "elements" with - | e
  · rfl
  · cases e <;> simp [jsTruthy, jsTypeofObject, jsIsArray]

theorem processLine_true (p : List Char → Option JValue)
    (m : List (String × JValue)) (l : List Char) :
    processLine p (true, m) l = (considerLine p m l).map (fun m2 => (true, m2)) := by
  rw [processLine, considerLine]
  by_cases hb : jsBlank l
  · simp [hb, Except.map]
  · by_cases hd : jsIncludes l delimiterChars
    · simp [hb, hd, Except.map]
    · simp only [hb, hd, Bool.false_eq_true, if_false, if_true]
      rcases p l with - | schema
      · simp [Except.map]
      · cases schema <;>
          simp [jsMember, Except.map, Except.bind, Bind.bind, jLookup] <;>
          split <;>
          simp [Except.map]

theorem foldlM_processLine_true (p : List Char → Option JValue)
    (ls : List (List Char)) : ∀ m : List (String × JValue),
    ls.foldlM (processLine p) (true, m)
      = (postDelimiterSchemas p m ls).map (fun m2 => (true, m2)) := by
  induction ls with
  | nil => intro m; rfl
  | cons l ls ih =>
    intro m
    rw [List.foldlM_cons, processLine_true, postDelimiterSchemas, List.foldlM_cons]
    rcases considerLine p m l with e | m2
    · rfl
    · simpa [Except.map, Except.bind, Bind.bind, postDelimiterSchemas] using ih m2

theorem foldlM_processLine_false (p : List Char → Option JValue)
    (ls : List (List Char)) : ∀ m : List (String × JValue),
    (ls.foldlM (processLine p) (false, m)).map Prod.snd
      = postDelimiterSchemas p m (linesAfterFirstDelimiter ls) := by
  induction ls with
  | nil => intro m; rfl
  | cons l ls ih =>
    intro m
    rw [List.foldlM_cons]
    by_cases hb : jsBlank l
    · have hstep : processLine p (false, m) l = .ok (false, m) := by
        simp [processLine, hb]
      have hd := not_includes_of_blank l hb
      rw [hstep, linesAfterFirstDelimiter]
      simpa [Except.bind, Bind.bind, hd] using ih m
    · by_cases hd : jsIncludes l delimiterChars
      · have hstep : processLine p (false, m) l = .ok (true, m) := by
          simp [processLine, hb, hd]
        rw [hstep, linesAfterFirstDelimiter, if_pos hd]
        have := foldlM_processLine_true p ls m
        simp only [Except.bind, Bind.bind, this]
        rcases postDelimiterSchemas p m ls with e | m2 <;> rfl
      · have hstep : processLine p (false, m) l = .ok (false, m) := by
          simp [processLine, hb, hd]
        rw [hstep, linesAfterFirstDelimiter, if_neg hd]
        simpa [Except.bind, Bind.bind] using ih m

theorem loadPS_node_eq_postDelim (p : List Char → Option JValue) (text : List Char) :
    loadPackageSchemasNode p true text
      = postDelimiterSchemas p [] (linesAfterFirstDelimiter (extractLines text)) := by
  rw [loadPackageSchemasNode]
  rw [← foldlM_processLine_false p (extractLines text) []]
  rcases (extractLines text).foldlM (processLine p) (false, []) with e | st <;>
    simp [Except.map, Except.bind, Bind.bind]

theorem loadPS_browser_eq_postDelim (p : List Char → Option JValue) (text : List Char) :
    loadPackageSchemasBrowser p true text
      = postDelimiterSchemas p [] (linesAfterFirstDelimiter (extractLines text)) := by
  rw [loadPackageSchemasBrowser]
  rw [← foldlM_processLine_false p (extractLines text) []]
  rcases (extractLines text).foldlM (processLine p) (false, []) with e | st <;>
    simp [Except.map, Except.bind, Bind.bind]

theorem retainedSchema_retainable (p : List Char → Option JValue) (l : List Char)
    (s : JValue) (h : retainedSchema p l = some s) : claimRetainable s = true := by
  rw [retainedSchema] at h
  by_cases hb : jsBlank l
  · simp [hb] at h
  · by_cases hd : jsIncludes l delimiterChars
    · simp [hb, hd] at h
    · simp only [hb, hd, Bool.false_eq_true, if_false] at h
      rcases hp : p l with - | schema
      · rw [hp] at h
        cases h
      · rw [hp] at h
        change (if claimRetainable schema = true then some schema else none) = some s at h
        by_cases hr : claimRetainable schema
        · rw [if_pos hr] at h
          cases h
          exact hr
        · rw [if_neg hr] at h
          cases h

theorem considerLine_ok (p : List Char → Option JValue) (m : List (String × JValue))
    (l : List Char) (m2 : List (String × JValue))
    (h : considerLine p m l = .ok m2) :
    (retainedSchema p l = none → m2 = m) ∧
    (∀ s, retainedSchema p l = some s →
      m2 = (schemaKeys s).foldl (fun acc k => objSet acc k s) m) := by
  rw [considerLine] at h
  rw [retainedSchema]
  by_cases hb : jsBlank l
  · rw [if_pos hb] at h ⊢
    cases h
    exact ⟨fun _ => rfl, fun s hs => by cases hs⟩
  · rw [if_neg hb] at h ⊢
    by_cases hd : jsIncludes l delimiterChars
    · rw [if_pos hd] at h ⊢
      cases h
      exact ⟨fun _ => rfl, fun s hs => by cases hs⟩
    · rw [if_neg hd] at h ⊢
      rcases hp : p l with - | schema
      · rw [hp] at h
        cases h
      · rw [hp] at h
        cases schema with
        | null => simp [jsMember, Except.bind, Bind.bind] at h
        | bool b =>
          simp [jsMember, Except.bind, Bind.bind, isPrimitiveKind] at h
          exact ⟨fun _ => h.symm, fun s hs => by simp [claimRetainable] at hs⟩
        | num n =>
          simp [jsMember, Except.bind, Bind.bind, isPrimitiveKind] at h
          exact ⟨fun _ => h.symm, fun s hs => by simp [claimRetainable] at hs⟩
        | str s0 =>
          simp [jsMember, Except.bind, Bind.bind, isPrimitiveKind] at h
          exact ⟨fun _ => h.symm, fun s hs => by simp [claimRetainable] at hs⟩
        | arr xs =>
          simp [jsMember, Except.bind, Bind.bind, isPrimitiveKind] at h
          exact ⟨fun _ => h.symm, fun s hs => by simp [claimRetainable] at hs⟩
        | obj kvs =>
          simp only [jsMember, Except.bind, Bind.bind] at h
          rw [hasElements_eq_retainCheck] at h
          rw [show ((match jLookup kvs "elements" with
                | some (.obj _) => true
                | _ => false) || isPrimitiveKind (jLookup kvs "kind"))
              = claimRetainable (JValue.obj kvs) from rfl] at h
          have hred : (match some (JValue.obj kvs) with
              | some sc => if claimRetainable sc = true then some sc else none
              | none => none)
              = (if claimRetainable (JValue.obj kvs) = true
                 then some (JValue.obj kvs) else none) := rfl
          rw [hred]
          by_cases hr : claimRetainable (JValue.obj kvs)
          · rw [if_pos hr] at h ⊢
            refine ⟨(fun hc => by cases hc), fun s hs => ?_⟩
            cases hs
            rw [Except.ok.injEq] at h
            rw [← h, schemaKeys]
            rcases hn : jLookup kvs "name" with - | n <;>
              rcases hu : jLookup kvs "url" with - | u
            · rfl
            · simp only [List.nil_append]
              by_cases htu : jsTruthy u <;> simp [htu]
            · by_cases htn : jsTruthy n <;> simp [htn]
            · by_cases htn : jsTruthy n <;> by_cases htu : jsTruthy u <;>
                simp [htn, htu]
          · rw [if_neg hr] at h ⊢
            rw [Except.ok.injEq] at h
            exact ⟨fun _ => h.symm, fun s hs => by cases hs⟩

theorem postDelim_untouched (p : List Char → Option JValue) (post : List (List Char)) :
    ∀ (m2 m : List (String × JValue)) (k : String),
    postDelimiterSchemas p m2 post = .ok m →
    (∀ l2 ∈ post, k ∉ insertedKeys p l2) →
    jLookup m k = jLookup m2 k := by
  induction post with
  | nil =>
    intro m2 m k h _
    cases h
    rfl
  | cons l rest ih =>
    intro m2 m k h hk
    rw [postDelimiterSchemas, List.foldlM_cons] at h
    rcases hc : considerLine p m2 l with e | m3
    · rw [hc] at h; cases h
    · rw [hc] at h
      simp only [Except.bind, Bind.bind] at h
      have hrest := ih m3 m k h (fun l2 hl2 => hk l2 (List.mem_cons_of_mem _ hl2))
      have hkl := hk l (List.mem_cons_self _ _)
      rw [insertedKeys] at hkl
      rcases hr : retainedSchema p l with - | s
      · rw [(considerLine_ok p m2 l m3 hc).1 hr] at hrest
        exact hrest
      · rw [(considerLine_ok p m2 l m3 hc).2 s hr] at hrest
        rw [hr] at hkl
        rw [hrest, jLookup_foldl_objSet_not_mem _ _ _ hkl]

theorem postDelim_invariant (p : List Char → Option JValue) (ls : List (List Char)) :
    ∀ (m0 m : List (String × JValue)),
    postDelimiterSchemas p m0 ls = .ok m →
    (∀ kv ∈ m0, claimRetainable kv.2 = true) →
    ∀ kv ∈ m, claimRetainable kv.2 = true := by
  induction ls with
  | nil =>
    intro m0 m h h0
    cases h
    exact h0
  | cons l rest ih =>
    intro m0 m h h0
    rw [postDelimiterSchemas, List.foldlM_cons] at h
    rcases hc : considerLine p m0 l with e | m3
    · rw [hc] at h; cases h
    · rw [hc] at h
      simp only [Except.bind, Bind.bind] at h
      refine ih m3 m h ?_
      rcases hr : retainedSchema p l with - | s
      · rw [(considerLine_ok p m0 l m3 hc).1 hr]
        exact h0
      · rw [(considerLine_ok p m0 l m3 hc).2 s hr]
        intro kv hkv
        rcases mem_foldl_objSet _ _ _ _ hkv with h1 | h1
        · exact h0 kv h1
        · rw [h1]
          exact retainedSchema_retainable p l s hr

/-- Claim C2 (amended): both implementations of `loadPackageSchemas`
compute exactly the schema map obtained by considering, in order, the
newline-terminated lines strictly after the first line containing the
delimiter marker, where blank lines and lines that themselves contain
the delimiter marker are skipped and every other line is parsed and
retained under its truthy name and url keys when it has an `elements`
object or primitive kind; no line at or before the first delimiter line
contributes an entry. -/
theorem claimC2_amended (p : List Char → Option JValue) (text : List Char) :
    loadPackageSchemasNode p true text
      = postDelimiterSchemas p [] (linesAfterFirstDelimiter (extractLines text))
    ∧ loadPackageSchemasBrowser p true text
      = postDelimiterSchemas p [] (linesAfterFirstDelimiter (extractLines text)) :=
  ⟨loadPS_node_eq_postDelim p text, loadPS_browser_eq_postDelim p text⟩

/-- The delimiter line of the C2 counterexample stream. -/
def c2DelimLine : List Char := "x fhir-schema/delimiter".toList

/-- A non-blank post-delimiter line that also contains the delimiter
marker. -/
def c2TrickLine : List Char := "T fhir-schema/delimiter".toList

/-- The schema the C2 counterexample's parser returns for the trick
line: it has a truthy name and an `elements` object, so the claim as
stated would require it to appear in the returned map. -/
def c2Schema : JValue := .obj [("name", .str "T"), ("elements", .obj [])]

/-- The C2 counterexample's `JSON.parse`. -/
def c2Parse : List Char → Option JValue :=
  fun l => if l = c2TrickLine then some c2Schema else none

/-- The C2 counterexample's decompressed package text. -/
def c2Text : List Char := "x fhir-schema/delimiter\nT fhir-schema/delimiter\n".toList

/-- Claim C2 counterexample: the stream's second line is a non-blank
newline-terminated line after the first delimiter line and parses to a
retainable schema named `T`, yet `loadPackageSchemas` returns the empty
map — the line is skipped because it contains the delimiter marker, so
it is not true that exactly the non-blank lines after the delimiter are
parsed and considered. -/
theorem claimC2_counterexample :
    loadPackageSchemasNode c2Parse true c2Text = .ok []
    ∧ c2TrickLine ∈ linesAfterFirstDelimiter (extractLines c2Text)
    ∧ jsBlank c2TrickLine = false
    ∧ c2Parse c2TrickLine = some c2Schema
    ∧ claimRetainable c2Schema = true
    ∧ jLookup [] "T" = none := by
  refine ⟨rfl, ?_, rfl, ?_, rfl, rfl⟩
  · show c2TrickLine ∈ linesAfterFirstDelimiter (extractLines c2Text)
    have : linesAfterFirstDelimiter (extractLines c2Text) = [c2TrickLine] := by decide
    rw [this]
    exact List.mem_singleton.mpr rfl
  · simp [c2Parse]

/-- Claim C3 (amended), part of the statement: the schema retained from
line `l` with both of its keys, no later considered line inserting
either key. -/
theorem claimC3_amended (p : List Char → Option JValue) (text : List Char)
    (m : List (String × JValue))
    (h : loadPackageSchemasNode p true text = .ok m) :
    (∀ kv ∈ m, claimRetainable kv.2 = true)
    ∧ (∀ (pre : List (List Char)) (l : List Char) (post : List (List Char)) (s : JValue),
        linesAfterFirstDelimiter (extractLines text) = pre ++ l :: post →
        retainedSchema p l = some s →
        (∀ l2 ∈ post, ∀ k ∈ insertedKeys p l2, k ∉ schemaKeys s) →
        ∀ k ∈ schemaKeys s, jLookup m k = some s) := by
  rw [loadPS_node_eq_postDelim] at h
  constructor
  · exact postDelim_invariant p _ [] m h (by intro kv hkv; cases hkv)
  · intro pre l post s hsplit hret hfree k hk
    rw [hsplit] at h
    rw [postDelimiterSchemas, List.foldlM_append] at h
    rcases h1 : (pre.foldlM (considerLine p) ([] : List (String × JValue))) with e | m1
    · rw [h1] at h; cases h
    · rw [h1] at h
      simp only [Except.bind, Bind.bind] at h
      rw [List.foldlM_cons] at h
      rcases h2 : considerLine p m1 l with e | ml
      · rw [h2] at h; cases h
      · rw [h2] at h
        simp only [Except.bind, Bind.bind] at h
        have hml := (considerLine_ok p m1 l ml h2).2 s hret
        have huntouched := postDelim_untouched p post ml m k h
          (fun l2 hl2 hkmem => hfree l2 hl2 k hkmem hk)
        rw [huntouched, hml, jLookup_foldl_objSet_mem _ _ _ hk]

/-- First post-delimiter line of the C3 counterexample. -/
def c3LineA : List Char := "L1".toList

/-- Second post-delimiter line of the C3 counterexample. -/
def c3LineB : List Char := "L2".toList

/-- The first retained schema: name `A`, url `U`. -/
def c3SchemaA : JValue :=
  .obj [("name", .str "A"), ("url", .str "U"), ("elements", .obj [])]

/-- The second retained schema: its name equals the first schema's url. -/
def c3SchemaB : JValue := .obj [("name", .str "U"), ("elements", .obj [])]

/-- The C3 counterexample's `JSON.parse`. -/
def c3Parse : List Char → Option JValue :=
  fun l =>
    if l = c3LineA then some c3SchemaA
    else if l = c3LineB then some c3SchemaB
    else none

/-- The C3 counterexample's decompressed package text. -/
def c3Text : List Char := "d fhir-schema/delimiter\nL1\nL2\n".toList

/-- Claim C3 counterexample: both schemas are retained, the first under
keys `A` and `U`; but the second schema's name `U` overwrites the first
schema's url key, so the retained first schema is no longer resolvable
by its url — the two keys of a retained schema need not map to the same
schema in the final map. -/
theorem claimC3_counterexample :
    loadPackageSchemasNode c3Parse true c3Text = .ok [("A", c3SchemaA), ("U", c3SchemaB)]
    ∧ ("A", c3SchemaA) ∈ [("A", c3SchemaA), ("U", c3SchemaB)]
    ∧ schemaKeys c3SchemaA = ["A", "U"]
    ∧ jLookup [("A", c3SchemaA), ("U", c3SchemaB)] "U" = some c3SchemaB
    ∧ c3SchemaB ≠ c3SchemaA := by
  refine ⟨rfl, List.mem_cons_self _ _, rfl, rfl, ?_⟩
  intro hc
  simp [c3SchemaB, c3SchemaA] at hc

/-- Witness for the amended claim C3 at the counterexample stream: the
load succeeds and every retained entry satisfies the retention
invariant. -/
theorem claimC3_amended_witness :
    loadPackageSchemasNode c3Parse true c3Text = .ok [("A", c3SchemaA), ("U", c3SchemaB)]
    ∧ (∀ kv ∈ [("A", c3SchemaA), ("U", c3SchemaB)], claimRetainable kv.2 = true) :=
  ⟨rfl, (claimC3_amended c3Parse c3Text _ rfl).1⟩

theorem linesAcc_no_nl (t : List Char) : ∀ acc : List Char,
    (∀ c ∈ t, c ≠ '\n') → linesAcc acc t = [] := by
  induction t with
  | nil => intro acc _; rfl
  | cons c cs ih =>
    intro acc h
    have hc : c ≠ '\n' := h c (List.mem_cons_self _ _)
    rw [linesAcc, if_neg hc]
    exact ih _ (fun c2 hc2 => h c2 (List.mem_cons_of_mem _ hc2))

theorem linesAcc_append_no_nl (s : List Char) : ∀ (acc t : List Char),
    (∀ c ∈ t, c ≠ '\n') → linesAcc acc (s ++ t) = linesAcc acc s := by
  induction s with
  | nil =>
    intro acc t h
    rw [List.nil_append, linesAcc_no_nl t acc h]
    rfl
  | cons c cs ih =>
    intro acc t h
    by_cases hc : c = '\n'
    · subst hc
      rw [List.cons_append, linesAcc, if_pos rfl, linesAcc, if_pos rfl, ih [] t h]
    · rw [List.cons_append, linesAcc, if_neg hc, linesAcc, if_neg hc, ih _ t h]

theorem extractLines_append_no_nl (s t : List Char) (h : ∀ c ∈ t, c ≠ '\n') :
    extractLines (s ++ t) = extractLines s :=
  linesAcc_append_no_nl s [] t h

/-- Claim C9: text after the last newline is discarded — appending an
unterminated final line changes neither implementation's result, and
asking `getSpecificLineFromNdjson` for the line number one past the
terminated lines yields null. -/
theorem claimC9_unterminated_line (p : List Char → Option JValue) (s t : List Char)
    (ht : ∀ c ∈ t, c ≠ '\n') (hne : t ≠ []) :
    loadPackageSchemasNode p true (s ++ t) = loadPackageSchemasNode p true s
    ∧ loadPackageSchemasBrowser p true (s ++ t) = loadPackageSchemasBrowser p true s
    ∧ getSpecificLineFromNdjson p true (s ++ t)
        ((extractLines (s ++ t)).length + 1) = none := by
  have he := extractLines_append_no_nl s t ht
  refine ⟨?_, ?_, ?_⟩
  · rw [loadPackageSchemasNode, loadPackageSchemasNode, he]
  · rw [loadPackageSchemasBrowser, loadPackageSchemasBrowser, he]
  · rw [getSpecificLineFromNdjson]
    simp only [Bool.not_true, Bool.false_eq_true, if_false]
    rw [List.get?_eq_none.mpr (Nat.le_refl _)]

/-- Witness for claim C9 at a concrete stream `a\n` plus unterminated
tail `b`. -/
theorem claimC9_witness :
    ((∀ c ∈ ("b".toList : List Char), c ≠ '\n') ∧ ("b".toList : List Char) ≠ [])
    ∧ (loadPackageSchemasNode (fun _ => none) true ("a\n".toList ++ "b".toList)
        = loadPackageSchemasNode (fun _ => none) true "a\n".toList
      ∧ loadPackageSchemasBrowser (fun _ => none) true ("a\n".toList ++ "b".toList)
        = loadPackageSchemasBrowser (fun _ => none) true "a\n".toList
      ∧ getSpecificLineFromNdjson (fun _ => none) true ("a\n".toList ++ "b".toList)
          ((extractLines ("a\n".toList ++ "b".toList)).length + 1) = none) :=
  ⟨⟨by decide, by decide⟩,
    claimC9_unterminated_line (fun _ => none) "a\n".toList "b".toList
      (by decide) (by decide)⟩

/-- Claim C10: whenever the fetch succeeds, the Node and browser
implementations of `loadPackageSchemas` agree on the whole result
(schema map or failure) for every parser and decompressed text. -/
theorem claimC10_node_browser_equiv (p : List Char → Option JValue)
    (statusOk : Bool) (text : List Char) (h : statusOk = true) :
    loadPackageSchemasNode p statusOk text = loadPackageSchemasBrowser p statusOk text := by
  subst h
  rfl

/-- Witness for claim C10 at a concrete text. -/
theorem claimC10_witness :
    true = true
    ∧ loadPackageSchemasNode (fun _ => none) true "a\n".toList
        = loadPackageSchemasBrowser (fun _ => none) true "a\n".toList :=
  ⟨rfl, claimC10_node_browser_equiv (fun _ => none) true "a\n".toList rfl⟩

theorem depStep_fst_mem (reg : List (String × List String)) (v e : List String)
    (a : String) : a ∈ (depStep reg v e).1 ↔ a ∈ v ∨ a ∈ e := by
  simp [depStep, jsDedup_mem]

theorem depStep_snd_mem (reg : List (String × List String)) (v e : List String)
    (a : String) :
    a ∈ (depStep reg v e).2 ↔ (∃ y ∈ e, a ∈ regDeps reg y) ∧ a ≠ "" ∧ a ∉ v := by
  simp only [depStep, List.mem_filter, jsDedup_mem, List.mem_flatten, List.mem_map]
  constructor
  · rintro ⟨⟨⟨l, ⟨y, hy, rfl⟩, hal⟩, hne⟩, hnv⟩
    refine ⟨⟨y, hy, hal⟩, by simpa using hne, by simpa using hnv⟩
  · rintro ⟨⟨y, hy, hal⟩, hne, hnv⟩
    exact ⟨⟨⟨regDeps reg y, ⟨y, hy, rfl⟩, hal⟩, by simpa using hne⟩, by simpa using hnv⟩

theorem depRes_superset (reg : List (String × List String)) :
    ∀ v e : List String, ∀ a : String,
    (a ∈ v ∨ a ∈ e) → a ∈ dependencyResolver reg v e := by
  intro v e
  induction v, e using dependencyResolver.induct reg with
  | case1 v =>
    intro a ha
    rw [dependencyResolver]
    simp only [if_pos rfl]
    rcases ha with h | h
    · exact h
    · cases h
  | case2 v e hne ih =>
    intro a ha
    rw [dependencyResolver, if_neg hne]
    exact ih a (Or.inl ((depStep_fst_mem reg v e a).mpr ha))

theorem depRes_closed (reg : List (String × List String)) :
    ∀ v e : List String,
    (∀ a ∈ v, ∀ b ∈ regDeps reg a, b ≠ "" → (b ∈ v ∨ b ∈ e)) →
    ∀ a ∈ dependencyResolver reg v e, ∀ b ∈ regDeps reg a, b ≠ "" →
      b ∈ dependencyResolver reg v e := by
  intro v e
  induction v, e using dependencyResolver.induct reg with
  | case1 v =>
    intro hI a ha b hb hbne
    rw [dependencyResolver] at ha ⊢
    simp only [if_pos rfl] at ha ⊢
    rcases hI a ha b hb hbne with h | h
    · exact h
    · cases h
  | case2 v e hne ih =>
    intro hI a ha b hb hbne
    rw [dependencyResolver, if_neg hne] at ha ⊢
    refine ih ?_ a ha b hb hbne
    intro a2 ha2 b2 hb2 hb2ne
    rcases (depStep_fst_mem reg v e a2).mp ha2 with hv | he
    · rcases hI a2 hv b2 hb2 hb2ne with h | h
      · exact Or.inl ((depStep_fst_mem reg v e b2).mpr (Or.inl h))
      · exact Or.inl ((depStep_fst_mem reg v e b2).mpr (Or.inr h))
    · by_cases hbv : b2 ∈ v
      · exact Or.inl ((depStep_fst_mem reg v e b2).mpr (Or.inl hbv))
      · exact Or.inr ((depStep_snd_mem reg v e b2).mpr ⟨⟨a2, he, hb2⟩, hb2ne, hbv⟩)

theorem depRes_reaches (reg : List (String × List String)) (inputs : List String) :
    ∀ v e : List String,
    (∀ a ∈ v, ReachTruthy reg inputs a) →
    (∀ a ∈ e, ReachTruthy reg inputs a) →
    ∀ a ∈ dependencyResolver reg v e, ReachTruthy reg inputs a := by
  intro v e
  induction v, e using dependencyResolver.induct reg with
  | case1 v =>
    intro hv _ a ha
    rw [dependencyResolver] at ha
    simp only [if_pos rfl] at ha
    exact hv a ha
  | case2 v e hne ih =>
    intro hv he a ha
    rw [dependencyResolver, if_neg hne] at ha
    refine ih ?_ ?_ a ha
    · intro a2 ha2
      rcases (depStep_fst_mem reg v e a2).mp ha2 with h | h
      · exact hv a2 h
      · exact he a2 h
    · intro a2 ha2
      obtain ⟨⟨y, hy, hdep⟩, hne2, -⟩ := (depStep_snd_mem reg v e a2).mp ha2
      exact ReachTruthy.step y a2 (he y hy) hdep hne2

theorem depRes_nodup (reg : List (String × List String)) :
    ∀ v e : List String, v.Nodup → (dependencyResolver reg v e).Nodup := by
  intro v e
  induction v, e using dependencyResolver.induct reg with
  | case1 v =>
    intro hv
    rw [dependencyResolver]
    simpa using hv
  | case2 v e hne ih =>
    intro _
    rw [dependencyResolver, if_neg hne]
    exact ih (jsDedup_nodup _)

/-- Claim C8 (amended): for every finite dependency registry, including
cyclic ones, `dependencyResolver` terminates (it is a total function of
this development) and `resolveDeps` returns, without duplicates, exactly
the set containing the input coordinates and every nonempty coordinate
reachable from them through recorded dependencies. -/
theorem claimC8_amended (reg : List (String × List String)) (coords : List String) :
    (resolveDeps reg coords).Nodup
    ∧ (∀ x, x ∈ resolveDeps reg coords ↔ ReachTruthy reg coords x) := by
  constructor
  · exact depRes_nodup reg [] (jsDedup coords) List.nodup_nil
  · intro x
    constructor
    · refine depRes_reaches reg coords [] (jsDedup coords) ?_ ?_ x
      · intro a ha; cases ha
      · intro a ha
        exact ReachTruthy.base a ((jsDedup_mem _ _).mp ha)
    · intro hr
      induction hr with
      | base y hy =>
        exact depRes_superset reg [] (jsDedup coords) y
          (Or.inr ((jsDedup_mem _ _).mpr hy))
      | step y z hy hdep hzne ih =>
        refine depRes_closed reg [] (jsDedup coords) ?_ y ih z hdep hzne
        intro a ha; cases ha

/-- Claim C8 counterexample: with the cyclic registry in which package
`A` depends on itself and on the empty-string coordinate, the recursive
call after the first expansion has visited set `[A]` and enqueued set
`[A]`, and the next step leaves the visited set unchanged — the visited
set does not strictly grow at every recursive call; moreover the empty
coordinate is reachable in the plain dependency relation but is absent
from the result. -/
theorem claimC8_counterexample :
    depStep [("A", ["A", ""])] [] ["A"] = (["A"], ["A"])
    ∧ depStep [("A", ["A", ""])] ["A"] ["A"] = (["A"], [])
    ∧ (["A"] : List String) ≠ []
    ∧ resolveDeps [("A", ["A", ""])] ["A"] = ["A"]
    ∧ "" ∈ regDeps [("A", ["A", ""])] "A"
    ∧ ReachPlain [("A", ["A", ""])] ["A"] ""
    ∧ "" ∉ resolveDeps [("A", ["A", ""])] ["A"] := by
  have hres : resolveDeps [("A", ["A", ""])] ["A"] = ["A"] := by
    rw [resolveDeps]
    rw [dependencyResolver]
    norm_num [jsDedup, jsDedupAux, depStep, regDeps, List.find?]
    rw [dependencyResolver]
    norm_num [jsDedup, jsDedupAux, depStep, regDeps, List.find?]
    rw [dependencyResolver]
    norm_num
  refine ⟨by decide, by decide, by decide, hres, by decide, ?_, ?_⟩
  · refine ReachPlain.step "A" "" (ReachPlain.base "A" ?_) ?_
    · decide
    · decide
  · rw [hres]
    decide

theorem jLookup_none_of_not_mem_keys (src : List (String × JValue)) (s : String)
    (h : s ∉ src.map Prod.fst) : jLookup src s = none := by
  induction src with
  | nil => rfl
  | cons p rest ih =>
    simp only [List.map_cons, List.mem_cons, not_or] at h
    rw [show (p :: rest : List (String × JValue)) = (p.1, p.2) :: rest from rfl,
      jLookup, if_neg (fun hc => h.1 hc.symm)]
    exact ih h.2

theorem jLookup_objAssign_none (src : List (String × JValue)) (s : String) :
    ∀ t : List (String × JValue),
    jLookup (objAssign t src) s = none ↔ jLookup t s = none ∧ jLookup src s = none := by
  induction src with
  | nil => intro t; simp [objAssign, jLookup]
  | cons p rest ih =>
    intro t
    rw [show objAssign t (p :: rest) = objAssign (objSet t p.1 p.2) rest from rfl]
    rw [ih (objSet t p.1 p.2)]
    rw [show (p :: rest : List (String × JValue)) = (p.1, p.2) :: rest from rfl, jLookup]
    by_cases hk : s = p.1
    · subst hk
      simp [jLookup_objSet_self]
    · rw [jLookup_objSet_ne _ _ _ _ hk, if_neg (fun hc => hk hc.symm)]

theorem jLookup_objAssign_not_src (src : List (String × JValue)) (s : String) :
    ∀ t : List (String × JValue), jLookup src s = none →
    jLookup (objAssign t src) s = jLookup t s := by
  induction src with
  | nil => intro t _; rfl
  | cons p rest ih =>
    intro t h
    rw [show (p :: rest : List (String × JValue)) = (p.1, p.2) :: rest from rfl,
      jLookup] at h
    by_cases hk : p.1 = s
    · rw [if_pos hk] at h; cases h
    · rw [if_neg hk] at h
      rw [show objAssign t (p :: rest) = objAssign (objSet t p.1 p.2) rest from rfl,
        ih _ h, jLookup_objSet_ne _ _ _ _ (fun hc => hk hc.symm)]

theorem jLookup_objAssign_of_some (src : List (String × JValue)) (s : String)
    (val : JValue) : ∀ t : List (String × JValue),
    (src.map Prod.fst).Nodup → jLookup src s = some val →
    jLookup (objAssign t src) s = some val := by
  induction src with
  | nil => intro t _ h; cases h
  | cons p rest ih =>
    intro t hnd h
    rw [List.map_cons, List.nodup_cons] at hnd
    rw [show (p :: rest : List (String × JValue)) = (p.1, p.2) :: rest from rfl,
      jLookup] at h
    rw [show objAssign t (p :: rest) = objAssign (objSet t p.1 p.2) rest from rfl]
    by_cases hk : p.1 = s
    · rw [if_pos hk] at h
      have hrest : jLookup rest s = none :=
        jLookup_none_of_not_mem_keys rest s (hk ▸ hnd.1)
      rw [jLookup_objAssign_not_src rest s _ hrest, ← hk, jLookup_objSet_self, h]
    · rw [if_neg hk] at h
      exact ih _ hnd.2 h

theorem jLookup_foldl_objAssign_none (ms : List (List (String × JValue))) (s : String) :
    ∀ t : List (String × JValue), (∀ mp ∈ ms, jLookup mp s = none) →
    jLookup (ms.foldl objAssign t) s = jLookup t s := by
  induction ms with
  | nil => intro t _; rfl
  | cons mp rest ih =>
    intro t h
    rw [List.foldl_cons, ih _ (fun m2 hm2 => h m2 (List.mem_cons_of_mem _ hm2)),
      jLookup_objAssign_not_src _ _ _ (h mp (List.mem_cons_self _ _))]

theorem jLookup_mergeSchemaMaps_none (ms : List (List (String × JValue))) (s : String) :
    ∀ t : List (String × JValue),
    (jLookup (ms.foldl objAssign t) s = none ↔
      jLookup t s = none ∧ ∀ mp ∈ ms, jLookup mp s = none) := by
  induction ms with
  | nil => intro t; simp
  | cons mp rest ih =>
    intro t
    rw [List.foldl_cons, ih (objAssign t mp), jLookup_objAssign_none]
    constructor
    · rintro ⟨⟨h1, h2⟩, h3⟩
      exact ⟨h1, fun m2 hm2 => by
        rcases List.mem_cons.mp hm2 with h | h
        · exact h ▸ h2
        · exact h3 m2 h⟩
    · rintro ⟨h1, h2⟩
      exact ⟨⟨h1, h2 mp (List.mem_cons_self _ _)⟩,
        fun m2 hm2 => h2 m2 (List.mem_cons_of_mem _ hm2)⟩

theorem mem_keys_objSet (m : List (String × JValue)) (k : String) (v : JValue)
    (a : String) (h : a ∈ (objSet m k v).map Prod.fst) :
    a ∈ m.map Prod.fst ∨ a = k := by
  induction m with
  | nil => simpa [objSet] using h
  | cons p rest ih =>
    by_cases hk : p.1 = k
    · rw [objSet, if_pos hk] at h
      simp only [List.map_cons, List.mem_cons] at h ⊢
      tauto
    · rw [objSet, if_neg hk] at h
      simp only [List.map_cons, List.mem_cons] at h ⊢
      rcases h with h | h
      · tauto
      · rcases ih h with h2 | h2 <;> tauto

theorem objSet_keys_nodup (m : List (String × JValue)) (k : String) (v : JValue)
    (h : (m.map Prod.fst).Nodup) : ((objSet m k v).map Prod.fst).Nodup := by
  induction m with
  | nil => simp [objSet]
  | cons p rest ih =>
    rw [List.map_cons, List.nodup_cons] at h
    by_cases hk : p.1 = k
    · rw [objSet, if_pos hk]
      rw [List.map_cons, List.nodup_cons]
      exact ⟨hk ▸ h.1, h.2⟩
    · rw [objSet, if_neg hk]
      rw [List.map_cons, List.nodup_cons]
      refine ⟨?_, ih h.2⟩
      intro hc
      rcases mem_keys_objSet rest k v p.1 hc with h2 | h2
      · exact h.1 h2
      · exact hk h2

theorem foldl_objSet_keys_nodup (keys : List String) (s : JValue) :
    ∀ m : List (String × JValue), (m.map Prod.fst).Nodup →
    ((keys.foldl (fun acc k2 => objSet acc k2 s) m).map Prod.fst).Nodup := by
  induction keys with
  | nil => intro m h; exact h
  | cons k ks ih =>
    intro m h
    rw [List.foldl_cons]
    exact ih _ (objSet_keys_nodup m k s h)

theorem postDelim_keys_nodup (p : List Char → Option JValue) (ls : List (List Char)) :
    ∀ m0 m : List (String × JValue),
    postDelimiterSchemas p m0 ls = .ok m →
    (m0.map Prod.fst).Nodup → (m.map Prod.fst).Nodup := by
  induction ls with
  | nil =>
    intro m0 m h h0
    cases h
    exact h0
  | cons l rest ih =>
    intro m0 m h h0
    rw [postDelimiterSchemas, List.foldlM_cons] at h
    rcases hc : considerLine p m0 l with e | m3
    · rw [hc] at h; cases h
    · rw [hc] at h
      simp only [Except.bind, Bind.bind] at h
      refine ih m3 m h ?_
      rcases hr : retainedSchema p l with - | s
      · rw [(considerLine_ok p m0 l m3 hc).1 hr]
        exact h0
      · rw [(considerLine_ok p m0 l m3 hc).2 s hr]
        exact foldl_objSet_keys_nodup _ _ _ h0

theorem loadPS_keys_nodup (p : List Char → Option JValue) (text : List Char)
    (m : List (String × JValue)) (h : loadPackageSchemasNode p true text = .ok m) :
    (m.map Prod.fst).Nodup := by
  rw [loadPS_node_eq_postDelim] at h
  exact postDelim_keys_nodup p _ [] m h (by simp)

theorem mapM_ok_mem {α β : Type} (f : α → Except String β) (l : List α) :
    ∀ out : List β, l.mapM f = .ok out → ∀ b ∈ out, ∃ a ∈ l, f a = .ok b := by
  induction l with
  | nil =>
    intro out h b hb
    cases h
    cases hb
  | cons a rest ih =>
    intro out h b hb
    rw [List.mapM_cons] at h
    rcases ha : f a with e | b0
    · rw [ha] at h
      simp [Except.bind, Bind.bind] at h
    · rw [ha] at h
      rcases hrest : rest.mapM f with e | bs
      · rw [hrest] at h
        simp [Except.bind, Bind.bind, Pure.pure] at h
      · rw [hrest] at h
        simp only [Except.bind, Bind.bind, Pure.pure] at h
        cases h
        rcases List.mem_cons.mp hb with h2 | h2
        · exact ⟨a, List.mem_cons_self _ _, h2 ▸ ha⟩
        · obtain ⟨a2, ha2, hfa2⟩ := ih bs hrest b h2
          exact ⟨a2, List.mem_cons_of_mem _ ha2, hfa2⟩

theorem loadedSchemaMaps_keys_nodup (reg : List (String × List String))
    (pkg : String → Bool × List Char) (parse : List Char → Option JValue)
    (coords : List String) (maps : List (List (String × JValue)))
    (h : loadedSchemaMaps reg pkg parse coords = .ok maps) :
    ∀ mp ∈ maps, (mp.map Prod.fst).Nodup := by
  intro mp hmp
  obtain ⟨c, -, hc⟩ := mapM_ok_mem _ _ maps h mp hmp
  rcases hst : (pkg c).1 with - | -
  · rw [hst] at hc
    rw [loadPackageSchemasNode] at hc
    simp at hc
  · rw [hst] at hc
    exact loadPS_keys_nodup parse (pkg c).2 mp hc

theorem createContext_resolver (reg : List (String × List String))
    (pkg : String → Bool × List Char) (parse : List Char → Option JValue)
    (coords : List String) (ctx : FhirContext) (maps : List (List (String × JValue)))
    (h : createContext reg pkg parse coords = .ok ctx)
    (hm : loadedSchemaMaps reg pkg parse coords = .ok maps) :
    ∀ s, ctx.schemaResolver s = jLookup (mergeSchemaMaps maps) s := by
  rw [createContext, hm] at h
  simp only [Except.bind, Bind.bind] at h
  cases h
  intro s
  rfl

/-- Claim C4: the context built by `createContext` exposes the single
`schemaResolver` capability, which is a pure lookup into the merged map
of the loaded packages: for every string it returns the schema stored
under that key, and `undefined` (none) exactly when no loaded package
map contains the key. -/
theorem claimC4_resolver (reg : List (String × List String))
    (pkg : String → Bool × List Char) (parse : List Char → Option JValue)
    (coords : List String) (ctx : FhirContext) (maps : List (List (String × JValue)))
    (h : createContext reg pkg parse coords = .ok ctx)
    (hm : loadedSchemaMaps reg pkg parse coords = .ok maps) :
    (∀ s, ctx.schemaResolver s = jLookup (mergeSchemaMaps maps) s)
    ∧ (∀ s, ctx.schemaResolver s = none ↔ ∀ mp ∈ maps, jLookup mp s = none) := by
  have hres := createContext_resolver reg pkg parse coords ctx maps h hm
  refine ⟨hres, fun s => ?_⟩
  rw [hres s, mergeSchemaMaps, jLookup_mergeSchemaMaps_none]
  simp [jLookup]

/-- Claim C5: when several loaded packages define a schema under the
same key, the resolver returns the entry of the package latest in the
load order that defines that key. -/
theorem claimC5_last_wins (reg : List (String × List String))
    (pkg : String → Bool × List Char) (parse : List Char → Option JValue)
    (coords : List String) (ctx : FhirContext)
    (ms1 : List (List (String × JValue))) (mp : List (String × JValue))
    (ms2 : List (List (String × JValue))) (s : String) (val : JValue)
    (h : createContext reg pkg parse coords = .ok ctx)
    (hm : loadedSchemaMaps reg pkg parse coords = .ok (ms1 ++ mp :: ms2))
    (hv : jLookup mp s = some val)
    (hlater : ∀ mp2 ∈ ms2, jLookup mp2 s = none) :
    ctx.schemaResolver s = some val := by
  have hres := createContext_resolver reg pkg parse coords ctx _ h hm
  rw [hres s, mergeSchemaMaps, List.foldl_append, List.foldl_cons]
  rw [jLookup_foldl_objAssign_none ms2 s _ hlater]
  have hnd : (mp.map Prod.fst).Nodup :=
    loadedSchemaMaps_keys_nodup reg pkg parse coords _ hm mp
      (List.mem_append.mpr (Or.inr (List.mem_cons_self _ _)))
  exact jLookup_objAssign_of_some mp s val _ hnd hv

/-- The C4/C5 witnesses' retained schema for package `p`. -/
def c4Schema : JValue := .obj [("name", .str "N"), ("elements", .obj [])]

/-- A second, different schema under the same name, for package `q`. -/
def c5Schema : JValue :=
  .obj [("name", .str "N"), ("kind", .str "resource"), ("elements", .obj [])]

/-- The witness parser: line `P` parses to the first schema, line `Q` to
the second. -/
def c45Parse : List Char → Option JValue :=
  fun l =>
    if l = "P".toList then some c4Schema
    else if l = "Q".toList then some c5Schema
    else none

/-- Package texts of the witness registry. -/
def c45Pkg : String → Bool × List Char :=
  fun c =>
    if c = "p" then (true, "x fhir-schema/delimiter\nP\n".toList)
    else (true, "x fhir-schema/delimiter\nQ\n".toList)

theorem c45_resolveDeps : resolveDeps [] ["p", "q"] = ["p", "q"] := by
  rw [resolveDeps]
  rw [dependencyResolver]
  simp only [jsDedup, jsDedupAux, depStep, regDeps, List.find?, List.map_cons,
    List.map_nil, List.flatten, List.filter, List.mem_cons, List.not_mem_nil,
    List.mem_singleton, List.append_nil, List.nil_append,
    String.reduceEq, if_false, if_true, reduceIte, List.cons_ne_self]
  rw [dependencyResolver]
  simp

theorem c45_loadedMaps :
    loadedSchemaMaps [] c45Pkg c45Parse ["p", "q"]
      = .ok [[("N", c4Schema)], [("N", c5Schema)]] := by
  rw [loadedSchemaMaps, c45_resolveDeps]
  have hpkgp : c45Pkg "p" = (true, "x fhir-schema/delimiter\nP\n".toList) := by
    simp [c45Pkg]
  have hpkgq : c45Pkg "q" = (true, "x fhir-schema/delimiter\nQ\n".toList) := by
    simp [c45Pkg]
  have hp : loadPackageSchemasNode c45Parse (c45Pkg "p").1 (c45Pkg "p").2
      = .ok [("N", c4Schema)] := by
    rw [hpkgp]
    rfl
  have hq : loadPackageSchemasNode c45Parse (c45Pkg "q").1 (c45Pkg "q").2
      = .ok [("N", c5Schema)] := by
    rw [hpkgq]
    rfl
  simp only [List.mapM_cons, List.mapM_nil, hp, hq, Except.bind, Bind.bind,
    Except.pure, Pure.pure]

theorem c45_createContext :
    createContext [] c45Pkg c45Parse ["p", "q"]
      = .ok ⟨fun n => jLookup [("N", c5Schema)] n⟩ := by
  rw [createContext, c45_loadedMaps]
  rfl

/-- Witness for claim C4 at the concrete two-package context. -/
theorem claimC4_witness :
    (createContext [] c45Pkg c45Parse ["p", "q"]
        = .ok ⟨fun n => jLookup [("N", c5Schema)] n⟩
      ∧ loadedSchemaMaps [] c45Pkg c45Parse ["p", "q"]
        = .ok [[("N", c4Schema)], [("N", c5Schema)]])
    ∧ ((∀ s, FhirContext.schemaResolver ⟨fun n => jLookup [("N", c5Schema)] n⟩ s
          = jLookup (mergeSchemaMaps [[("N", c4Schema)], [("N", c5Schema)]]) s)
      ∧ (∀ s, FhirContext.schemaResolver ⟨fun n => jLookup [("N", c5Schema)] n⟩ s = none
          ↔ ∀ mp ∈ [[("N", c4Schema)], [("N", c5Schema)]], jLookup mp s = none)) :=
  ⟨⟨c45_createContext, c45_loadedMaps⟩,
    claimC4_resolver [] c45Pkg c45Parse ["p", "q"] _ _ c45_createContext c45_loadedMaps⟩

/-- Witness for claim C5: package `q` is loaded after package `p`, both
define key `N`, and the resolver returns the schema from `q`. -/
theorem claimC5_witness :
    (createContext [] c45Pkg c45Parse ["p", "q"]
        = .ok ⟨fun n => jLookup [("N", c5Schema)] n⟩
      ∧ loadedSchemaMaps [] c45Pkg c45Parse ["p", "q"]
        = .ok ([[("N", c4Schema)]] ++ [("N", c5Schema)] :: [])
      ∧ jLookup [("N", c5Schema)] "N" = some c5Schema
      ∧ (∀ mp2 ∈ ([] : List (List (String × JValue))), jLookup mp2 "N" = none))
    ∧ FhirContext.schemaResolver ⟨fun n => jLookup [("N", c5Schema)] n⟩ "N"
        = some c5Schema :=
  ⟨⟨c45_createContext, c45_loadedMaps, rfl, (fun mp2 hmp2 => by cases hmp2)⟩,
    claimC5_last_wins [] c45Pkg c45Parse ["p", "q"] _ [[("N", c4Schema)]]
      [("N", c5Schema)] [] "N" c5Schema c45_createContext c45_loadedMaps rfl
      (fun mp2 hmp2 => by cases hmp2)⟩

/-- Claim C1: the public type declaration file `index.d.ts` declares only
`enumerateElements` and `validate`, while the test suite imports and
calls `validateElementValue` from `src/index.js` and the specified
external interface lists it as a third entry point — the declared
interface omits an exported entry point. -/
theorem claimC1_dts_omits_validateElementValue :
    "validateElementValue" ∈ testsImportedFunctions
    ∧ "validateElementValue" ∈ specEntryPoints
    ∧ "validateElementValue" ∉ indexDtsDeclaredFunctions
    ∧ "enumerateElements" ∈ indexDtsDeclaredFunctions
    ∧ "validate" ∈ indexDtsDeclaredFunctions := by
  refine ⟨?_, ?_, ?_, ?_, ?_⟩ <;> decide

theorem unknownErrs_eq_nil (tree : List (String × EnumElement)) (path : List String)
    (kvs : List (String × JValue)) :
    unknownErrs tree path kvs = [] ↔ unknownOk tree kvs = true := by
  rw [unknownErrs, unknownOk, List.filterMap_eq_nil_iff, List.all_eq_true]
  refine ⟨fun h kv hkv => ?_, fun h kv hkv => ?_⟩
  · have hx := h kv hkv
    by_cases hs : (aLookup tree kv.1).isSome
    · exact hs
    · rw [if_neg hs] at hx
      cases hx
  · rw [if_pos (h kv hkv)]

theorem requiredErrs_eq_nil (tree : List (String × EnumElement)) (req : List String)
    (path : List String) (kvs : List (String × JValue)) :
    requiredErrs tree req path kvs = [] ↔ requiredOk tree req kvs = true := by
  rw [requiredErrs, requiredOk, List.filterMap_eq_nil_iff, List.all_eq_true]
  refine forall₂_congr fun r _ => ?_
  rcases hal : aLookup tree r with - | e
  · by_cases hs : (jLookup kvs r).isSome <;> simp [hal, hs]
  · rcases hch : e.attrs.choices with - | members
    · by_cases hs : (jLookup kvs r).isSome <;> simp [hal, hch, hs]
    · by_cases hc : countPresent members kvs = 1 <;> simp [hal, hch, hc]

theorem excludedErrs_eq_nil (excl : List String) (path : List String)
    (kvs : List (String × JValue)) :
    excludedErrs excl path kvs = [] ↔ excludedOk excl kvs = true := by
  rw [excludedErrs, excludedOk, List.filterMap_eq_nil_iff, List.all_eq_true]
  refine forall₂_congr fun x _ => ?_
  by_cases hs : (jLookup kvs x).isSome <;> simp [hs]

theorem choiceErrs_eq_nil (tree : List (String × EnumElement)) (path : List String)
    (kvs : List (String × JValue)) :
    choiceErrs tree path kvs = [] ↔ choiceOk tree kvs = true := by
  rw [choiceErrs, choiceOk, List.filterMap_eq_nil_iff, List.all_eq_true]
  refine forall₂_congr fun p _ => ?_
  rcases hch : p.2.attrs.choices with - | members
  · simp [hch]
  · by_cases hc : 1 < countPresent members kvs
    · simp [hch, hc, Nat.not_le.mpr hc]
    · simp [hch, hc, Nat.not_lt.mp hc]

theorem cardinalityErrs_eq_nil (e : EnumElement) (path : List String) (n : Nat) :
    cardinalityErrs e path n = [] ↔ cardinalityOk e n = true := by
  rw [cardinalityErrs, cardinalityOk]
  rw [List.append_eq_nil, Bool.and_eq_true]
  apply and_congr
  · rcases hm : e.attrs.minCard with - | m
    · simp [hm]
    · by_cases h1 : n < m
      · simp [hm, h1, Nat.not_le.mpr h1]
      · simp [hm, h1, Nat.not_lt.mp h1]
  · rcases hm : e.attrs.maxCard with - | m
    · simp [hm]
    · by_cases h1 : m < n
      · simp [hm, h1, Nat.not_le.mpr h1]
      · simp [hm, h1, Nat.not_lt.mp h1]

theorem sliceErrs_eq_nil (e : EnumElement) (path : List String) (items : List JValue) :
    sliceErrs e path items = [] ↔ slicesOk e items = true := by
  rw [sliceErrs, slicesOk, List.filterMap_eq_nil_iff, List.all_eq_true]
  refine forall₂_congr fun p _ => ?_
  rcases hmin : p.2.minCard with - | m <;> rcases hmax : p.2.maxCard with - | m2
  · simp [hmin, hmax]
  · by_cases h2 : m2 < (items.filter (fun it => sliceMatches p.2 it)).length <;>
      simp [hmin, hmax, h2] <;> omega
  · by_cases h1 : (items.filter (fun it => sliceMatches p.2 it)).length < m <;>
      simp [hmin, hmax, h1] <;> omega
  · by_cases h1 : (items.filter (fun it => sliceMatches p.2 it)).length < m <;>
      by_cases h2 : m2 < (items.filter (fun it => sliceMatches p.2 it)).length <;>
      simp [hmin, hmax, h1, h2] <;> omega

theorem fixedErrs_eq_nil (e : EnumElement) (path : List String) (v : JValue) :
    fixedErrs e path v = [] ↔ fixedOk e v = true := by
  rw [fixedErrs, fixedOk]
  rcases hf : e.attrs.fixedVal with - | f
  · simp [hf]
  · by_cases h1 : jEq v f <;> simp [hf, h1]

theorem patternErrs_eq_nil (e : EnumElement) (path : List String) (v : JValue) :
    patternErrs e path v = [] ↔ patternOk e v = true := by
  rw [patternErrs, patternOk]
  rcases hp : e.attrs.patternVal with - | p
  · simp [hp]
  · by_cases h1 : jMatches p v <;> simp [hp, h1]

theorem sizeOf_filter_le (l : List (String × JValue)) (f : String × JValue → Bool) :
    sizeOf (l.filter f) ≤ sizeOf l := by
  induction l with
  | nil => simp
  | cons x xs ih =>
    by_cases hx : f x
    · simp only [List.filter_cons, if_pos hx]
      simp only [List.cons.sizeOf_spec]
      omega
    · simp only [List.filter_cons, if_neg hx]
      simp only [List.cons.sizeOf_spec]
      omega

theorem conforms_equiv (N : Nat) :
    (∀ (res : List (String × FhirSchema)) (tree : List (String × EnumElement))
        (req excl path : List String) (kvs : List (String × JValue)),
      2 * sizeOf kvs + 1 ≤ N →
      (validateObject res tree req excl path kvs = [] ↔
        conformsObject res tree req excl kvs = true))
    ∧ (∀ (res : List (String × FhirSchema)) (tree : List (String × EnumElement))
        (path : List String) (fields : List (String × JValue)),
      2 * sizeOf fields ≤ N →
      (validateFields res tree path fields = [] ↔
        conformsFields res tree fields = true))
    ∧ (∀ (res : List (String × FhirSchema)) (e : EnumElement)
        (path : List String) (idx : Nat) (items : List JValue),
      2 * sizeOf items ≤ N →
      (validateItems res e path idx items = [] ↔ conformsItems res e items = true))
    ∧ (∀ (res : List (String × FhirSchema)) (e : EnumElement)
        (path : List String) (v : JValue),
      2 * sizeOf v + 1 ≤ N →
      (validateSingle res e path v = [] ↔ conformsSingle res e v = true)) := by
  induction N using Nat.strong_induction_on with
  | _ N ih =>
  refine ⟨?_, ?_, ?_, ?_⟩
  · -- objects
    intro res tree req excl path kvs hN
    rw [validateObject, conformsObject]
    simp only [List.append_eq_nil, Bool.and_eq_true, and_assoc]
    rw [unknownErrs_eq_nil, requiredErrs_eq_nil, excludedErrs_eq_nil, choiceErrs_eq_nil]
    have hrest := (ih (2 * sizeOf kvs) (by omega)).2.1 res tree path kvs (Nat.le_refl _)
    rw [hrest]
  · -- fields
    intro res tree path fields hN
    cases fields with
    | nil =>
      rw [validateFields, conformsFields]
      simp
    | cons kv rest =>
      obtain ⟨k, v⟩ := kv
      have hsz : sizeOf ((k, v) :: rest) = 1 + (1 + sizeOf k + sizeOf v) + sizeOf rest := by
        simp only [List.cons.sizeOf_spec, Prod.mk.sizeOf_spec]
      rw [validateFields, conformsFields]
      simp only [List.append_eq_nil, Bool.and_eq_true]
      have hrest := (ih (2 * sizeOf rest) (by omega)).2.1 res tree path rest
        (Nat.le_refl _)
      rw [hrest]
      refine and_congr ?_ Iff.rfl
      rcases hal : aLookup tree k with - | e
      · simp [hal]
      · simp only [hal]
        by_cases hia : e.attrs.isArray = some true
        · rw [if_pos hia, if_pos hia]
          cases v with
          | arr items =>
            have hitems := (ih (2 * sizeOf items) (by
                have harr : sizeOf (JValue.arr items) = 1 + sizeOf items := by
                  simp only [JValue.arr.sizeOf_spec]
                omega)).2.2.1 res e (path ++ [k]) 0 items (Nat.le_refl _)
            simp only [List.append_eq_nil, Bool.and_eq_true, and_assoc]
            rw [cardinalityErrs_eq_nil, sliceErrs_eq_nil, hitems]
          | null => simp
          | bool b => simp
          | num n => simp
          | str s => simp
          | obj kvs => simp
        · rw [if_neg hia, if_neg hia]
          cases v with
          | arr items => simp
          | null =>
            exact (ih (2 * sizeOf JValue.null + 1) (by omega)).2.2.2 res e
              (path ++ [k]) JValue.null (Nat.le_refl _)
          | bool b =>
            exact (ih (2 * sizeOf (JValue.bool b) + 1) (by omega)).2.2.2 res e
              (path ++ [k]) (JValue.bool b) (Nat.le_refl _)
          | num n =>
            exact (ih (2 * sizeOf (JValue.num n) + 1) (by omega)).2.2.2 res e
              (path ++ [k]) (JValue.num n) (Nat.le_refl _)
          | str s =>
            exact (ih (2 * sizeOf (JValue.str s) + 1) (by omega)).2.2.2 res e
              (path ++ [k]) (JValue.str s) (Nat.le_refl _)
          | obj kvs2 =>
            exact (ih (2 * sizeOf (JValue.obj kvs2) + 1) (by omega)).2.2.2 res e
              (path ++ [k]) (JValue.obj kvs2) (Nat.le_refl _)
  · -- items
    intro res e path idx items hN
    cases items with
    | nil =>
      rw [validateItems, conformsItems]
      simp
    | cons item rest =>
      have hsz : sizeOf (item :: rest) = 1 + sizeOf item + sizeOf rest := by
        simp only [List.cons.sizeOf_spec]
      rw [validateItems, conformsItems]
      simp only [List.append_eq_nil, Bool.and_eq_true]
      have hitem := (ih (2 * sizeOf item + 1) (by omega)).2.2.2 res e
        (path ++ [toString idx]) item (Nat.le_refl _)
      have hrest := (ih (2 * sizeOf rest) (by omega)).2.2.1 res e path (idx + 1) rest
        (Nat.le_refl _)
      rw [hitem, hrest]
  · -- single values
    intro res e path v hN
    cases v with
    | obj kvs =>
      have hko : sizeOf (JValue.obj kvs) = 1 + sizeOf kvs := by
        simp only [JValue.obj.sizeOf_spec]
      rw [validateSingle, conformsSingle]
      simp only [List.append_eq_nil, Bool.and_eq_true, and_assoc]
      rw [fixedErrs_eq_nil, patternErrs_eq_nil]
      refine and_congr Iff.rfl (and_congr Iff.rfl ?_)
      rcases ht : e.attrs.typeName with - | t
      · -- no declared type
        simp only [ht]
        by_cases hemp : e.elements.isEmpty
        · simp only [hemp, if_true]
          rcases hrt : jLookup kvs "resourceType" with - | rtv
          · simp [hrt]
          · cases rtv with
            | str rt =>
              rcases henum : enumerateElements res [rt] with err | tree0
              · simp [hrt, henum]
              · rcases hreq : effectiveRequired res [rt] with err2 | req0
                · simp [hrt, henum, hreq]
                · rcases hexcl : effectiveExcluded res [rt] with err3 | excl0
                  · simp [hrt, henum, hreq, hexcl]
                  · simp only [hrt, henum, hreq, hexcl]
                    exact (ih (2 * sizeOf kvs + 1) (by omega)).1 res tree0 req0 excl0
                      path (kvs.filter (fun p => p.1 ≠ "resourceType"))
                      (by
                        have hfl := sizeOf_filter_le kvs
                          (fun p => p.1 ≠ "resourceType")
                        omega)
            | null => simp [hrt]
            | bool b => simp [hrt]
            | num n => simp [hrt]
            | arr xs => simp [hrt]
            | obj kvs2 => simp [hrt]
        · simp only [hemp, Bool.false_eq_true, if_false]
          exact (ih (2 * sizeOf kvs + 1) (by omega)).1 res e.elements
            e.attrs.requiredElems e.attrs.excludedElems path kvs (Nat.le_refl _)
      · -- declared type
        simp only [ht]
        rcases hls : lookupSchema res t with - | sch
        · simp [hls]
        · simp only [hls]
          by_cases hk : sch.kind = some "primitive-type"
          · rw [if_pos hk, if_pos hk]
            by_cases hpo : primitiveOk t (JValue.obj kvs) <;> simp [hpo]
          · rw [if_neg hk, if_neg hk]
            rcases henum : enumerateElements res [t] with err | tree0
            · simp [henum]
            · rcases hreq : effectiveRequired res [t] with err2 | req0
              · simp [henum, hreq]
              · rcases hexcl : effectiveExcluded res [t] with err3 | excl0
                · simp [henum, hreq, hexcl]
                · simp only [henum, hreq, hexcl]
                  exact (ih (2 * sizeOf kvs + 1) (by omega)).1 res
                    (mergeEnumTreeList tree0 e.elements)
                    (unionKeep req0 e.attrs.requiredElems)
                    (unionKeep excl0 e.attrs.excludedElems) path kvs (Nat.le_refl _)
    | null =>
      rw [validateSingle, conformsSingle]
      simp only [List.append_eq_nil, Bool.and_eq_true, and_assoc]
      rw [fixedErrs_eq_nil, patternErrs_eq_nil]
      refine and_congr Iff.rfl (and_congr Iff.rfl ?_)
      rcases ht : e.attrs.typeName with - | t
      · by_cases hemp : e.elements.isEmpty <;> simp [ht, hemp]
      · rcases hls : lookupSchema res t with - | sch
        · simp [ht, hls]
        · by_cases hk : sch.kind = some "primitive-type"
          · by_cases hpo : primitiveOk t JValue.null <;> simp [ht, hls, hk, hpo]
          · simp [ht, hls, hk]
      all_goals
        intro kvs2 hcc
        cases hcc
    | bool b =>
      rw [validateSingle, conformsSingle]
      simp only [List.append_eq_nil, Bool.and_eq_true, and_assoc]
      rw [fixedErrs_eq_nil, patternErrs_eq_nil]
      refine and_congr Iff.rfl (and_congr Iff.rfl ?_)
      rcases ht : e.attrs.typeName with - | t
      · by_cases hemp : e.elements.isEmpty <;> simp [ht, hemp]
      · rcases hls : lookupSchema res t with - | sch
        · simp [ht, hls]
        · by_cases hk : sch.kind = some "primitive-type"
          · by_cases hpo : primitiveOk t (JValue.bool b) <;> simp [ht, hls, hk, hpo]
          · simp [ht, hls, hk]
      all_goals
        intro kvs2 hcc
        cases hcc
    | num n =>
      rw [validateSingle, conformsSingle]
      simp only [List.append_eq_nil, Bool.and_eq_true, and_assoc]
      rw [fixedErrs_eq_nil, patternErrs_eq_nil]
      refine and_congr Iff.rfl (and_congr Iff.rfl ?_)
      rcases ht : e.attrs.typeName with - | t
      · by_cases hemp : e.elements.isEmpty <;> simp [ht, hemp]
      · rcases hls : lookupSchema res t with - | sch
        · simp [ht, hls]
        · by_cases hk : sch.kind = some "primitive-type"
          · by_cases hpo : primitiveOk t (JValue.num n) <;> simp [ht, hls, hk, hpo]
          · simp [ht, hls, hk]
      all_goals
        intro kvs2 hcc
        cases hcc
    | str s =>
      rw [validateSingle, conformsSingle]
      simp only [List.append_eq_nil, Bool.and_eq_true, and_assoc]
      rw [fixedErrs_eq_nil, patternErrs_eq_nil]
      refine and_congr Iff.rfl (and_congr Iff.rfl ?_)
      rcases ht : e.attrs.typeName with - | t
      · by_cases hemp : e.elements.isEmpty <;> simp [ht, hemp]
      · rcases hls : lookupSchema res t with - | sch
        · simp [ht, hls]
        · by_cases hk : sch.kind = some "primitive-type"
          · by_cases hpo : primitiveOk t (JValue.str s) <;> simp [ht, hls, hk, hpo]
          · simp [ht, hls, hk]
      all_goals
        intro kvs2 hcc
        cases hcc
    | arr xs =>
      rw [validateSingle, conformsSingle]
      simp only [List.append_eq_nil, Bool.and_eq_true, and_assoc]
      rw [fixedErrs_eq_nil, patternErrs_eq_nil]
      refine and_congr Iff.rfl (and_congr Iff.rfl ?_)
      rcases ht : e.attrs.typeName with - | t
      · by_cases hemp : e.elements.isEmpty <;> simp [ht, hemp]
      · rcases hls : lookupSchema res t with - | sch
        · simp [ht, hls]
        · by_cases hk : sch.kind = some "primitive-type"
          · by_cases hpo : primitiveOk t (JValue.arr xs) <;> simp [ht, hls, hk, hpo]
          · simp [ht, hls, hk]
      all_goals
        intro kvs2 hcc
        cases hcc

/-- Claim C6: `validate` and `validateElementValue` are total functions
into a result carrying an `errors` list (the embedding never throws:
enumeration failures are reported in the list), and the list is empty
exactly when the input conforms — the document passes every structural
check, respectively the addressed element resolves and the value passes
its element checks. -/
theorem claimC6_errors_iff_conforms (res : List (String × FhirSchema))
    (names : List String) (data : JValue) (path : List String) (value : JValue) :
    ((validate res names data).errors = [] ↔ conformsDocument res names data = true)
    ∧ ((validateElementValue res names path value).errors = []
        ↔ conformsElementValue res names path value = true) := by
  constructor
  · cases data with
    | obj kvs =>
      rw [validate, conformsDocument]
      rcases henum : enumerateElements res names with err | tree
      · simp [henum]
      · rcases hreq : effectiveRequired res names with err2 | req
        · simp [henum, hreq]
        · rcases hexcl : effectiveExcluded res names with err3 | excl
          · simp [henum, hreq, hexcl]
          · simp only [henum, hreq, hexcl]
            exact (conforms_equiv (2 * sizeOf kvs + 1)).1 res tree req excl [] kvs
              (Nat.le_refl _)
    | null =>
      rw [validate, conformsDocument]
      rcases henum : enumerateElements res names with err | tree
      · simp [henum]
      · rcases hreq : effectiveRequired res names with err2 | req
        · simp [henum, hreq]
        · rcases hexcl : effectiveExcluded res names with err3 | excl
          · simp [henum, hreq, hexcl]
          · simp [henum, hreq, hexcl]
      all_goals
        intro kvs2 hcc
        cases hcc
    | bool b =>
      rw [validate, conformsDocument]
      rcases henum : enumerateElements res names with err | tree
      · simp [henum]
      · rcases hreq : effectiveRequired res names with err2 | req
        · simp [henum, hreq]
        · rcases hexcl : effectiveExcluded res names with err3 | excl
          · simp [henum, hreq, hexcl]
          · simp [henum, hreq, hexcl]
      all_goals
        intro kvs2 hcc
        cases hcc
    | num n =>
      rw [validate, conformsDocument]
      rcases henum : enumerateElements res names with err | tree
      · simp [henum]
      · rcases hreq : effectiveRequired res names with err2 | req
        · simp [henum, hreq]
        · rcases hexcl : effectiveExcluded res names with err3 | excl
          · simp [henum, hreq, hexcl]
          · simp [henum, hreq, hexcl]
      all_goals
        intro kvs2 hcc
        cases hcc
    | str s =>
      rw [validate, conformsDocument]
      rcases henum : enumerateElements res names with err | tree
      · simp [henum]
      · rcases hreq : effectiveRequired res names with err2 | req
        · simp [henum, hreq]
        · rcases hexcl : effectiveExcluded res names with err3 | excl
          · simp [henum, hreq, hexcl]
          · simp [henum, hreq, hexcl]
      all_goals
        intro kvs2 hcc
        cases hcc
    | arr xs =>
      rw [validate, conformsDocument]
      rcases henum : enumerateElements res names with err | tree
      · simp [henum]
      · rcases hreq : effectiveRequired res names with err2 | req
        · simp [henum, hreq]
        · rcases hexcl : effectiveExcluded res names with err3 | excl
          · simp [henum, hreq, hexcl]
          · simp [henum, hreq, hexcl]
      all_goals
        intro kvs2 hcc
        cases hcc
  · rw [validateElementValue, conformsElementValue]
    rcases henum : enumerateElements res names with err | tree
    · simp [henum]
    · rcases hpath : resolveElementPath tree path with - | e
      · simp [henum, hpath]
      · simp only [henum, hpath]
        exact (conforms_equiv (2 * sizeOf value + 1)).2.2.2 res e path value
          (Nat.le_refl _)

theorem resolveChain_cyc (res : List (String × FhirSchema)) (v : List String) (n : String)
    (hin : n ∈ v) :
    resolveChain res v n = .error (mkErr "CyclicBase" [n]) := by
  rw [resolveChain.eq_def]
  simp [hin]

theorem resolveChain_notfound (res : List (String × FhirSchema)) (v : List String) (n : String)
    (hnin : ¬ n ∈ v) (hl : lookupSchema res n = none) :
    resolveChain res v n = .error (mkErr "SchemaNotFound" [n]) := by
  rw [resolveChain.eq_def]
  simp only [dif_neg hnin]
  split
  · rfl
  · rename_i sch2 heq
    rw [hl] at heq
    cases heq

theorem resolveChain_base_none (res : List (String × FhirSchema)) (v : List String) (n : String)
    (hnin : ¬ n ∈ v) (sch : FhirSchema) (hl : lookupSchema res n = some sch)
    (hb : sch.base = none) :
    resolveChain res v n = .ok [(n, sch)] := by
  rw [resolveChain.eq_def]
  simp only [dif_neg hnin]
  split
  · rename_i heq
    rw [hl] at heq
    cases heq
  · rename_i sch2 heq
    rw [hl] at heq
    injection heq with he
    subst he
    rw [hb]

theorem resolveChain_base_some (res : List (String × FhirSchema)) (v : List String) (n : String)
    (hnin : ¬ n ∈ v) (sch : FhirSchema) (hl : lookupSchema res n = some sch)
    (b : String) (hb : sch.base = some b) :
    resolveChain res v n = Except.map (fun c => c ++ [(n, sch)]) (resolveChain res (n :: v) b) := by
  rw [resolveChain.eq_def]
  simp only [dif_neg hnin]
  split
  · rename_i heq
    rw [hl] at heq
    cases heq
  · rename_i sch2 heq
    rw [hl] at heq
    injection heq with he
    subst he
    rw [hb]

theorem resolveChain_ext (res1 res2 : List (String × FhirSchema))
    (h : ∀ n, lookupSchema res1 n = lookupSchema res2 n) :
    ∀ (visited : List String) (name : String),
    resolveChain res1 visited name = resolveChain res2 visited name := by
  intro visited name
  induction visited, name using resolveChain.induct res1 with
  | case1 visited name hin =>
    rw [resolveChain_cyc res1 visited name hin, resolveChain_cyc res2 visited name hin]
  | case2 visited name hnin hl =>
    rw [resolveChain_notfound res1 visited name hnin hl,
      resolveChain_notfound res2 visited name hnin (by rw [← h name]; exact hl)]
  | case3 visited name hnin sch hl hbase =>
    rw [resolveChain_base_none res1 visited name hnin sch hl hbase,
      resolveChain_base_none res2 visited name hnin sch (by rw [← h name]; exact hl) hbase]
  | case4 visited name hnin sch hl b hbase ih =>
    rw [resolveChain_base_some res1 visited name hnin sch hl b hbase,
      resolveChain_base_some res2 visited name hnin sch (by rw [← h name]; exact hl) b hbase,
      ih]

theorem foldlM_congr {α β ε : Type} (f g : α → β → Except ε α)
    (hfg : ∀ a b, f a b = g a b) :
    ∀ (l : List β) (a : α), l.foldlM f a = l.foldlM g a := by
  intro l
  induction l with
  | nil => intro a; rfl
  | cons b bs ihb =>
    intro a
    simp only [List.foldlM_cons, hfg]
    cases g a b with
    | error e => rfl
    | ok a2 => exact ihb a2

theorem schemaChains_ext (res1 res2 : List (String × FhirSchema))
    (h : ∀ n, lookupSchema res1 n = lookupSchema res2 n) (names : List String) :
    schemaChains res1 names = schemaChains res2 names := by
  rw [schemaChains, schemaChains]
  exact foldlM_congr _ _
    (fun a n => by rw [resolveChain_ext res1 res2 h [] n]) names []

theorem enumerateElements_ext (res1 res2 : List (String × FhirSchema))
    (h : ∀ n, lookupSchema res1 n = lookupSchema res2 n) (names : List String) :
    enumerateElements res1 names = enumerateElements res2 names := by
  rw [enumerateElements, enumerateElements, schemaChains_ext res1 res2 h names]

theorem effectiveRequired_ext (res1 res2 : List (String × FhirSchema))
    (h : ∀ n, lookupSchema res1 n = lookupSchema res2 n) (names : List String) :
    effectiveRequired res1 names = effectiveRequired res2 names := by
  rw [effectiveRequired, effectiveRequired, schemaChains_ext res1 res2 h names]

theorem effectiveExcluded_ext (res1 res2 : List (String × FhirSchema))
    (h : ∀ n, lookupSchema res1 n = lookupSchema res2 n) (names : List String) :
    effectiveExcluded res1 names = effectiveExcluded res2 names := by
  rw [effectiveExcluded, effectiveExcluded, schemaChains_ext res1 res2 h names]

theorem validator_ext (res1 res2 : List (String × FhirSchema))
    (h : ∀ n, lookupSchema res1 n = lookupSchema res2 n) (N : Nat) :
    (∀ (tree : List (String × EnumElement)) (req excl path : List String)
        (kvs : List (String × JValue)),
      2 * sizeOf kvs + 1 ≤ N →
      validateObject res1 tree req excl path kvs = validateObject res2 tree req excl path kvs)
    ∧ (∀ (tree : List (String × EnumElement)) (path : List String)
        (fields : List (String × JValue)),
      2 * sizeOf fields ≤ N →
      validateFields res1 tree path fields = validateFields res2 tree path fields)
    ∧ (∀ (e : EnumElement) (path : List String) (idx : Nat) (items : List JValue),
      2 * sizeOf items ≤ N →
      validateItems res1 e path idx items = validateItems res2 e path idx items)
    ∧ (∀ (e : EnumElement) (path : List String) (v : JValue),
      2 * sizeOf v + 1 ≤ N →
      validateSingle res1 e path v = validateSingle res2 e path v) := by
  induction N using Nat.strong_induction_on with
  | _ N ih =>
  refine ⟨?_, ?_, ?_, ?_⟩
  · -- objects
    intro tree req excl path kvs hN
    rw [validateObject, validateObject]
    have hrest := (ih (2 * sizeOf kvs) (by omega)).2.1 tree path kvs (Nat.le_refl _)
    rw [hrest]
  · -- fields
    intro tree path fields hN
    cases fields with
    | nil => rw [validateFields, validateFields]
    | cons kv rest =>
      obtain ⟨k, v⟩ := kv
      have hsz : sizeOf ((k, v) :: rest) = 1 + (1 + sizeOf k + sizeOf v) + sizeOf rest := by
        simp only [List.cons.sizeOf_spec, Prod.mk.sizeOf_spec]
      rw [validateFields, validateFields]
      have hrest := (ih (2 * sizeOf rest) (by omega)).2.1 tree path rest (Nat.le_refl _)
      rw [hrest]
      rcases hal : aLookup tree k with - | e
      · simp [hal]
      · simp only [hal]
        by_cases hia : e.attrs.isArray = some true
        · rw [if_pos hia, if_pos hia]
          cases v with
          | arr items =>
            have hitems := (ih (2 * sizeOf items) (by
                have harr : sizeOf (JValue.arr items) = 1 + sizeOf items := by
                  simp only [JValue.arr.sizeOf_spec]
                omega)).2.2.1 e (path ++ [k]) 0 items (Nat.le_refl _)
            exact congrArg (fun x => (cardinalityErrs e (path ++ [k]) items.length
              ++ sliceErrs e (path ++ [k]) items ++ x)
              ++ validateFields res2 tree path rest) hitems
          | null => rfl
          | bool b => rfl
          | num n => rfl
          | str s => rfl
          | obj kvs => rfl
        · rw [if_neg hia, if_neg hia]
          cases v with
          | arr items => rfl
          | null =>
            have hs := (ih (2 * sizeOf JValue.null + 1) (by omega)).2.2.2 e
              (path ++ [k]) JValue.null (Nat.le_refl _)
            exact congrArg (fun x => x ++ validateFields res2 tree path rest) hs
          | bool b =>
            have hs := (ih (2 * sizeOf (JValue.bool b) + 1) (by omega)).2.2.2 e
              (path ++ [k]) (JValue.bool b) (Nat.le_refl _)
            exact congrArg (fun x => x ++ validateFields res2 tree path rest) hs
          | num n =>
            have hs := (ih (2 * sizeOf (JValue.num n) + 1) (by omega)).2.2.2 e
              (path ++ [k]) (JValue.num n) (Nat.le_refl _)
            exact congrArg (fun x => x ++ validateFields res2 tree path rest) hs
          | str s =>
            have hs := (ih (2 * sizeOf (JValue.str s) + 1) (by omega)).2.2.2 e
              (path ++ [k]) (JValue.str s) (Nat.le_refl _)
            exact congrArg (fun x => x ++ validateFields res2 tree path rest) hs
          | obj kvs2 =>
            have hs := (ih (2 * sizeOf (JValue.obj kvs2) + 1) (by omega)).2.2.2 e
              (path ++ [k]) (JValue.obj kvs2) (Nat.le_refl _)
            exact congrArg (fun x => x ++ validateFields res2 tree path rest) hs
  · -- items
    intro e path idx items hN
    cases items with
    | nil => rw [validateItems, validateItems]
    | cons item rest =>
      have hsz : sizeOf (item :: rest) = 1 + sizeOf item + sizeOf rest := by
        simp only [List.cons.sizeOf_spec]
      rw [validateItems, validateItems]
      have hitem := (ih (2 * sizeOf item + 1) (by omega)).2.2.2 e
        (path ++ [toString idx]) item (Nat.le_refl _)
      have hrest := (ih (2 * sizeOf rest) (by omega)).2.2.1 e path (idx + 1) rest
        (Nat.le_refl _)
      rw [hitem, hrest]
  · -- single values
    intro e path v hN
    cases v with
    | obj kvs =>
      have hko : sizeOf (JValue.obj kvs) = 1 + sizeOf kvs := by
        simp only [JValue.obj.sizeOf_spec]
      rw [validateSingle, validateSingle]
      rcases ht : e.attrs.typeName with - | t
      · simp only [ht]
        by_cases hemp : e.elements.isEmpty
        · simp only [hemp, if_true]
          rcases hrt : jLookup kvs "resourceType" with - | rtv
          · simp [hrt]
          · cases rtv with
            | str rt =>
              simp only [hrt]
              rw [enumerateElements_ext res1 res2 h [rt],
                effectiveRequired_ext res1 res2 h [rt],
                effectiveExcluded_ext res1 res2 h [rt]]
              rcases henum : enumerateElements res2 [rt] with err | tree0
              · simp [hrt, henum]
              · rcases hreq : effectiveRequired res2 [rt] with err2 | req0
                · simp [hrt, henum, hreq]
                · rcases hexcl : effectiveExcluded res2 [rt] with err3 | excl0
                  · simp [hrt, henum, hreq, hexcl]
                  · simp only [hrt, henum, hreq, hexcl]
                    have hobj := (ih (2 * sizeOf kvs + 1) (by omega)).1 tree0 req0 excl0
                      path (kvs.filter (fun p => p.1 ≠ "resourceType"))
                      (by
                        have hfl := sizeOf_filter_le kvs
                          (fun p => p.1 ≠ "resourceType")
                        omega)
                    exact congrArg (fun x => fixedErrs e path (JValue.obj kvs)
                      ++ patternErrs e path (JValue.obj kvs) ++ x) hobj
            | null => simp [hrt]
            | bool b => simp [hrt]
            | num n => simp [hrt]
            | arr xs => simp [hrt]
            | obj kvs2 => simp [hrt]
        · simp only [hemp, Bool.false_eq_true, if_false]
          have hobj := (ih (2 * sizeOf kvs + 1) (by omega)).1 e.elements
            e.attrs.requiredElems e.attrs.excludedElems path kvs (Nat.le_refl _)
          rw [hobj]
      · simp only [ht]
        rw [h t]
        rcases hls : lookupSchema res2 t with - | sch
        · simp [hls]
        · simp only [hls]
          by_cases hk : sch.kind = some "primitive-type"
          · rw [if_pos hk, if_pos hk]
          · rw [if_neg hk, if_neg hk]
            rw [enumerateElements_ext res1 res2 h [t],
              effectiveRequired_ext res1 res2 h [t],
              effectiveExcluded_ext res1 res2 h [t]]
            rcases henum : enumerateElements res2 [t] with err | tree0
            · simp [henum]
            · rcases hreq : effectiveRequired res2 [t] with err2 | req0
              · simp [henum, hreq]
              · rcases hexcl : effectiveExcluded res2 [t] with err3 | excl0
                · simp [henum, hreq, hexcl]
                · simp only [henum, hreq, hexcl]
                  have hobj := (ih (2 * sizeOf kvs + 1) (by omega)).1
                    (mergeEnumTreeList tree0 e.elements)
                    (unionKeep req0 e.attrs.requiredElems)
                    (unionKeep excl0 e.attrs.excludedElems) path kvs (Nat.le_refl _)
                  rw [hobj]
    | null =>
      rw [validateSingle, validateSingle]
      rcases ht : e.attrs.typeName with - | t
      · by_cases hemp : e.elements.isEmpty <;> simp [ht, hemp]
      · simp only [ht]
        rw [h t]
      all_goals
        intro kvs2 hcc
        cases hcc
    | bool b =>
      rw [validateSingle, validateSingle]
      rcases ht : e.attrs.typeName with - | t
      · by_cases hemp : e.elements.isEmpty <;> simp [ht, hemp]
      · simp only [ht]
        rw [h t]
      all_goals
        intro kvs2 hcc
        cases hcc
    | num n =>
      rw [validateSingle, validateSingle]
      rcases ht : e.attrs.typeName with - | t
      · by_cases hemp : e.elements.isEmpty <;> simp [ht, hemp]
      · simp only [ht]
        rw [h t]
      all_goals
        intro kvs2 hcc
        cases hcc
    | str s =>
      rw [validateSingle, validateSingle]
      rcases ht : e.attrs.typeName with - | t
      · by_cases hemp : e.elements.isEmpty <;> simp [ht, hemp]
      · simp only [ht]
        rw [h t]
      all_goals
        intro kvs2 hcc
        cases hcc
    | arr xs =>
      rw [validateSingle, validateSingle]
      rcases ht : e.attrs.typeName with - | t
      · by_cases hemp : e.elements.isEmpty <;> simp [ht, hemp]
      · simp only [ht]
        rw [h t]
      all_goals
        intro kvs2 hcc
        cases hcc

theorem validate_ext (res1 res2 : List (String × FhirSchema))
    (h : ∀ n, lookupSchema res1 n = lookupSchema res2 n)
    (names : List String) (data : JValue) :
    validate res1 names data = validate res2 names data := by
  cases data with
  | obj kvs =>
    rw [validate, validate, enumerateElements_ext res1 res2 h names,
      effectiveRequired_ext res1 res2 h names, effectiveExcluded_ext res1 res2 h names]
    rcases henum : enumerateElements res2 names with err | tree
    · simp [henum]
    · rcases hreq : effectiveRequired res2 names with err2 | req
      · simp [henum, hreq]
      · rcases hexcl : effectiveExcluded res2 names with err3 | excl
        · simp [henum, hreq, hexcl]
        · simp only [henum, hreq, hexcl]
          have hobj := (validator_ext res1 res2 h (2 * sizeOf kvs + 1)).1 tree req excl
            [] kvs (Nat.le_refl _)
          rw [hobj]
  | null =>
    rw [validate, validate, enumerateElements_ext res1 res2 h names,
      effectiveRequired_ext res1 res2 h names, effectiveExcluded_ext res1 res2 h names]
    all_goals
      intro kvs2 hcc
      cases hcc
  | bool b =>
    rw [validate, validate, enumerateElements_ext res1 res2 h names,
      effectiveRequired_ext res1 res2 h names, effectiveExcluded_ext res1 res2 h names]
    all_goals
      intro kvs2 hcc
      cases hcc
  | num n =>
    rw [validate, validate, enumerateElements_ext res1 res2 h names,
      effectiveRequired_ext res1 res2 h names, effectiveExcluded_ext res1 res2 h names]
    all_goals
      intro kvs2 hcc
      cases hcc
  | str s =>
    rw [validate, validate, enumerateElements_ext res1 res2 h names,
      effectiveRequired_ext res1 res2 h names, effectiveExcluded_ext res1 res2 h names]
    all_goals
      intro kvs2 hcc
      cases hcc
  | arr xs =>
    rw [validate, validate, enumerateElements_ext res1 res2 h names,
      effectiveRequired_ext res1 res2 h names, effectiveExcluded_ext res1 res2 h names]
    all_goals
      intro kvs2 hcc
      cases hcc

def c7SchemaA : FhirSchema where
  kind := some "resource"

def c7SchemaB : FhirSchema where
  base := some "A"

def c7res1 : List (String × FhirSchema) := [("A", c7SchemaA)]

def c7res2 : List (String × FhirSchema) := [("A", c7SchemaA), ("A", c7SchemaB)]

def c7data : JValue := .obj [("x", .str "y")]

/-- Claim C7: validate is deterministic — it is a pure function of the
schemas the resolver provides and the data, so for a fixed pair of
schemas and data every call returns the identical error list, with the
same errors in the same order: two resolvers that answer every schema
name identically (two calls over the same fixed schema map) yield equal
`errors` lists. -/
theorem claimC7_determinism (res1 res2 : List (String × FhirSchema))
    (names : List String) (data : JValue)
    (h : ∀ n, lookupSchema res1 n = lookupSchema res2 n) :
    (validate res1 names data).errors = (validate res2 names data).errors := by
  rw [validate_ext res1 res2 h names data]

theorem claimC7_witness :
    (validate c7res1 ["A"] c7data).errors = (validate c7res2 ["A"] c7data).errors :=
  claimC7_determinism c7res1 c7res2 ["A"] c7data (fun n => by
    simp only [c7res1, c7res2, lookupSchema, List.find?]
    by_cases hn : (("A" : String) == n) = true
    · simp [hn]
    · simp [hn])
